import Mathlib

/-!
# Trip fuel split calculator (`day3/Splitter_clone/src/App.jsx`)

A shallow embedding of the pure logic of the calculator:

* `computed`        the memoised sanitise-and-calculate block (lines 28-48),
* `formatCurrency`  the currency formatter (lines 9-15),
* `shareText`       the summary template (line 50),
* `AppState`, `step` the form state and its event handlers (lines 18-26, 52-74, 130-233).

JavaScript numbers are modelled by `JSNum`: a finite value is carried as the rational it
denotes, next to `NaN`, `+Infinity` and `-Infinity`.  The operators `/`, `*`, `-`, numeric
literals and `Number(string)` round their exact result to binary64 with `roundDouble`
(nearest, ties to even, gradual underflow, overflow to an infinity).  The model has a
single zero.
-/

namespace Splitter

/-! ## JavaScript numbers -/

/-- A JavaScript Number: a finite value (kept exactly), NaN, +Infinity or -Infinity. -/
inductive JSNum where
  | fin (q : ℚ)
  | nan
  | posInf
  | negInf
  deriving DecidableEq

/-- The power `2 ^ e` for an integer exponent. -/
def pow2 (e : ℤ) : ℚ :=
  if 0 ≤ e then ((2 ^ e.toNat : ℕ) : ℚ) else 1 / ((2 ^ (-e).toNat : ℕ) : ℚ)

/-- The integer nearest to `x`, a tie going to the even neighbour. -/
def roundHalfEven (x : ℚ) : ℤ :=
  if x - ⌊x⌋ < 1 / 2 then ⌊x⌋
  else if 1 / 2 < x - ⌊x⌋ then ⌊x⌋ + 1
  else if ⌊x⌋ % 2 = 0 then ⌊x⌋ else ⌊x⌋ + 1

/-- Binary logarithm of a natural number, rounded down, from a fuel bound. -/
def log2Aux : Nat → Nat → Nat
  | 0, _ => 0
  | fuel + 1, n => if n < 2 then 0 else log2Aux fuel (n / 2) + 1

/-- Binary logarithm of a natural number, rounded down (`0` for `0`). -/
def natLog2 (n : Nat) : Nat := log2Aux n n

/-- The binary exponent of a positive rational: the `e` with `2 ^ e ≤ q < 2 ^ (e + 1)`. -/
def binaryExponent (q : ℚ) : ℤ :=
  if pow2 ((natLog2 q.num.natAbs : ℤ) - (natLog2 q.den : ℤ)) ≤ q
  then (natLog2 q.num.natAbs : ℤ) - (natLog2 q.den : ℤ)
  else (natLog2 q.num.natAbs : ℤ) - (natLog2 q.den : ℤ) - 1

/-- The spacing of the binary64 values around a non-zero `q`: `2 ^ (e - 52)` for the binary
exponent `e` of `|q|`, and `2 ^ (-1074)` throughout the subnormal range. -/
def ulp (q : ℚ) : ℚ := pow2 (max (binaryExponent |q|) (-1022) - 52)

/-- The binary64 value of an exact result: rounded to the nearest value with a 53 bit
significand, ties to even, gradual underflow below `2 ^ (-1022)`, and an infinity from
`2 ^ 1024` on. -/
def roundDouble (q : ℚ) : JSNum :=
  if q = 0 then .fin 0
  else if pow2 1024 ≤ (roundHalfEven (|q| / ulp q) : ℚ) * ulp q then
    (if 0 < q then .posInf else .negInf)
  else .fin (if 0 < q then (roundHalfEven (|q| / ulp q) : ℚ) * ulp q
             else -((roundHalfEven (|q| / ulp q) : ℚ) * ulp q))

/-- The finite binary64 values: `m * 2 ^ t` with `|m| < 2 ^ 53` and `-1074 ≤ t ≤ 971`. -/
def IsDouble (x : ℚ) : Prop :=
  ∃ m t : ℤ, |m| < 2 ^ 53 ∧ -1074 ≤ t ∧ t ≤ 971 ∧ x = (m : ℚ) * pow2 t

namespace JSNum

/-- The `/` operator. -/
def div : JSNum → JSNum → JSNum
  | fin a, fin b =>
    if b = 0 then (if a = 0 then nan else if 0 < a then posInf else negInf)
    else roundDouble (a / b)
  | fin _, posInf => fin 0
  | fin _, negInf => fin 0
  | posInf, fin b => if 0 ≤ b then posInf else negInf
  | negInf, fin b => if 0 ≤ b then negInf else posInf
  | _, _ => nan

/-- The `*` operator. -/
def mul : JSNum → JSNum → JSNum
  | fin a, fin b => roundDouble (a * b)
  | fin a, posInf => if a = 0 then nan else if 0 < a then posInf else negInf
  | fin a, negInf => if a = 0 then nan else if 0 < a then negInf else posInf
  | posInf, fin b => if b = 0 then nan else if 0 < b then posInf else negInf
  | negInf, fin b => if b = 0 then nan else if 0 < b then negInf else posInf
  | posInf, posInf => posInf
  | posInf, negInf => negInf
  | negInf, posInf => negInf
  | negInf, negInf => posInf
  | _, _ => nan

/-- The binary `-` operator. -/
def sub : JSNum → JSNum → JSNum
  | fin a, fin b => roundDouble (a - b)
  | fin _, posInf => negInf
  | fin _, negInf => posInf
  | posInf, fin _ => posInf
  | negInf, fin _ => negInf
  | posInf, negInf => posInf
  | negInf, posInf => negInf
  | _, _ => nan

/-- Two-argument `Math.max`: NaN if either argument is NaN, else the larger one. -/
def max : JSNum → JSNum → JSNum
  | nan, _ => nan
  | _, nan => nan
  | posInf, _ => posInf
  | _, posInf => posInf
  | negInf, y => y
  | x, negInf => x
  | fin a, fin b => fin (if a ≤ b then b else a)

/-- The function `Math.floor`. -/
def floor : JSNum → JSNum
  | fin q => fin (⌊q⌋ : ℤ)
  | x => x

/-- The function `Math.round`: the integer nearest to the argument, ties towards +Infinity. -/
def round : JSNum → JSNum
  | fin q => fin (⌊q + 1 / 2⌋ : ℤ)
  | x => x

/-- Truthiness of a Number: everything except 0 and NaN. -/
def truthy : JSNum → Bool
  | fin q => q ≠ 0
  | nan => false
  | _ => true

/-- The expression `x || y` for Numbers. -/
def orElse (x y : JSNum) : JSNum := if x.truthy then x else y

/-- The comparison `x <= y` (false as soon as one side is NaN). -/
def le : JSNum → JSNum → Prop
  | fin a, fin b => a ≤ b
  | nan, _ => False
  | _, nan => False
  | negInf, _ => True
  | _, posInf => True
  | _, _ => False

instance : LE JSNum := ⟨le⟩

/-- The predicate `Number.isInteger`. -/
def IsInteger (x : JSNum) : Prop := ∃ n : ℤ, x = fin n

/-- The predicate `Number.isFinite` on a Number. -/
def isFinite : JSNum → Bool
  | fin _ => true
  | _ => false

end JSNum

/-! ## Raw state values and `Number(...)` -/

/-- The raw values a form field of the state can hold. -/
inductive JSValue where
  | num (x : JSNum)
  | str (s : String)
  | undefined
  | null
  deriving DecidableEq

/-- The characters `StrWhiteSpaceChar` of the StringToNumber grammar. -/
def isStrWhiteSpaceChar (c : Char) : Bool :=
  let n := c.toNat
  n = 0x9 || n = 0xA || n = 0xB || n = 0xC || n = 0xD || n = 0x20 || n = 0xA0 ||
  n = 0x1680 || (0x2000 ≤ n && n ≤ 0x200A) || n = 0x2028 || n = 0x2029 ||
  n = 0x202F || n = 0x205F || n = 0x3000 || n = 0xFEFF

/-- Strip leading and trailing `StrWhiteSpaceChar`s. -/
def trimWhiteSpace (cs : List Char) : List Char :=
  ((cs.dropWhile isStrWhiteSpaceChar).reverse.dropWhile isStrWhiteSpaceChar).reverse

/-- Value of a digit character in a radix up to 16, if it is one. -/
def digitValue (radix : Nat) (c : Char) : Option Nat :=
  let n := c.toNat
  let v : Option Nat :=
    if 48 ≤ n ∧ n ≤ 57 then some (n - 48)
    else if 97 ≤ n ∧ n ≤ 102 then some (n - 87)
    else if 65 ≤ n ∧ n ≤ 70 then some (n - 55)
    else none
  v.bind fun d => if d < radix then some d else none

/-- Whether the character is a digit of the radix. -/
def isDigitOf (radix : Nat) (c : Char) : Bool := (digitValue radix c).isSome

/-- The mathematical value of a digit string in a radix. -/
def digitsValue (radix : Nat) (cs : List Char) : Nat :=
  cs.foldl (fun acc c => acc * radix + (digitValue radix c).getD 0) 0

/-- The power `10 ^ e` for an integer exponent. -/
def pow10 (e : ℤ) : ℚ :=
  if 0 ≤ e then ((10 ^ e.toNat : ℕ) : ℚ) else 1 / ((10 ^ (-e).toNat : ℕ) : ℚ)

/-- An optional `ExponentPart` that must reach the end of the input. -/
def parseExponent (cs : List Char) : Option ℤ :=
  match cs with
  | [] => some 0
  | c :: rest =>
    if c = 'e' ∨ c = 'E' then
      let signed : Bool × List Char :=
        match rest with
        | '+' :: r => (false, r)
        | '-' :: r => (true, r)
        | r => (false, r)
      if signed.2 ≠ [] ∧ signed.2.all (isDigitOf 10) then
        some (if signed.1 then -(digitsValue 10 signed.2 : ℤ) else (digitsValue 10 signed.2 : ℤ))
      else none
    else none

/-- The production `StrUnsignedDecimalLiteral`: `Infinity`, `d.d?e?`, `.de?` or `de?`. -/
def parseUnsignedDecimal (cs : List Char) : Option JSNum :=
  if cs = "Infinity".toList then some JSNum.posInf
  else
    let ip := cs.span (isDigitOf 10)
    match ip.2 with
    | '.' :: r2 =>
      let fp := r2.span (isDigitOf 10)
      if ip.1 = [] ∧ fp.1 = [] then none
      else (parseExponent fp.2).map fun e =>
        roundDouble (((digitsValue 10 ip.1 : ℚ) + (digitsValue 10 fp.1 : ℚ) / (10 ^ fp.1.length : ℕ))
          * pow10 e)
    | r1 =>
      if ip.1 = [] then none
      else (parseExponent r1).map fun e => roundDouble ((digitsValue 10 ip.1 : ℚ) * pow10 e)

/-- The production `NonDecimalIntegerLiteral`: `0b`, `0o` or `0x` followed by digits. -/
def parseNonDecimal (cs : List Char) : Option JSNum :=
  match cs with
  | '0' :: p :: ds =>
    let radix : Option Nat :=
      if p = 'x' ∨ p = 'X' then some 16
      else if p = 'o' ∨ p = 'O' then some 8
      else if p = 'b' ∨ p = 'B' then some 2
      else none
    radix.bind fun r =>
      if ds ≠ [] ∧ ds.all (isDigitOf r) then some (roundDouble (digitsValue r ds : ℚ)) else none
  | _ => none

/-- The abstract operation StringToNumber: the exact value of the literal, rounded to
binary64. -/
def stringToNumber (s : String) : JSNum :=
  let cs := trimWhiteSpace s.toList
  if cs = [] then JSNum.fin 0
  else
    match parseNonDecimal cs with
    | some x => x
    | none =>
      match cs with
      | '+' :: r => (parseUnsignedDecimal r).getD JSNum.nan
      | '-' :: r => JSNum.sub (JSNum.fin 0) ((parseUnsignedDecimal r).getD JSNum.nan)
      | r => (parseUnsignedDecimal r).getD JSNum.nan

/-- The conversion `Number(value)`. -/
def toNumber : JSValue → JSNum
  | .num x => x
  | .str s => stringToNumber s
  | .undefined => JSNum.nan
  | .null => JSNum.fin 0

/-! ## The calculation (`computed`, lines 28-48) -/

/-- The object returned by the `computed` block. -/
structure Computed where
  safeDistance : JSNum
  safeMileage : JSNum
  safePeople : JSNum
  safeFuelPrice : JSNum
  totalCost : JSNum
  payablePeople : JSNum
  eachPersonPays : JSNum
  deriving DecidableEq

/-- Line 29: `Math.max(0, Number(distance) || 0)`. -/
def safeDistance (distance : JSValue) : JSNum :=
  JSNum.max (.fin 0) (JSNum.orElse (toNumber distance) (.fin 0))

/-- Line 30: `Math.max(0.01, Number(mileage) || 0.01)`. -/
def safeMileage (mileage : JSValue) : JSNum :=
  JSNum.max (roundDouble (1 / 100)) (JSNum.orElse (toNumber mileage) (roundDouble (1 / 100)))

/-- Line 31: `Math.max(1, Math.floor(Number(people) || 1))`. -/
def safePeople (people : JSValue) : JSNum :=
  JSNum.max (.fin 1) (JSNum.floor (JSNum.orElse (toNumber people) (.fin 1)))

/-- Line 32: `Math.max(0, Number(fuelPrice) || 0)`. -/
def safeFuelPrice (fuelPrice : JSValue) : JSNum :=
  JSNum.max (.fin 0) (JSNum.orElse (toNumber fuelPrice) (.fin 0))

/-- Line 34: `(safeDistance / safeMileage) * safeFuelPrice`. -/
def totalCost (distance mileage fuelPrice : JSValue) : JSNum :=
  JSNum.mul (JSNum.div (safeDistance distance) (safeMileage mileage)) (safeFuelPrice fuelPrice)

/-- Line 35: `includeOwner ? safePeople : Math.max(1, safePeople - 1)`. -/
def payablePeople (people : JSValue) (includeOwner : Bool) : JSNum :=
  if includeOwner then safePeople people
  else JSNum.max (.fin 1) (JSNum.sub (safePeople people) (.fin 1))

/-- Line 36: `totalCost / payablePeople`. -/
def rawPerPerson (distance mileage people fuelPrice : JSValue) (includeOwner : Bool) : JSNum :=
  JSNum.div (totalCost distance mileage fuelPrice) (payablePeople people includeOwner)

/-- Line 37: `Math.round(rawPerPerson / roundTo) * roundTo`. -/
def eachPersonPays (distance mileage people fuelPrice : JSValue) (includeOwner : Bool)
    (roundTo : JSNum) : JSNum :=
  JSNum.mul
    (JSNum.round (JSNum.div (rawPerPerson distance mileage people fuelPrice includeOwner) roundTo))
    roundTo

/-- The `computed` block: sanitise the four raw fields, then derive the cost figures. -/
def computed (distance mileage people fuelPrice : JSValue) (includeOwner : Bool)
    (roundTo : JSNum) : Computed :=
  { safeDistance := safeDistance distance
    safeMileage := safeMileage mileage
    safePeople := safePeople people
    safeFuelPrice := safeFuelPrice fuelPrice
    totalCost := totalCost distance mileage fuelPrice
    payablePeople := payablePeople people includeOwner
    eachPersonPays := eachPersonPays distance mileage people fuelPrice includeOwner roundTo }

/-! ## The currency formatter (`formatCurrency`, lines 9-15) -/

/-- Truncation towards zero. -/
def truncate (q : ℚ) : ℤ := if 0 ≤ q then ⌊q⌋ else ⌈q⌉

/-- The `%` operator: the remainder takes the sign of the dividend. -/
def JSNum.rem : JSNum → JSNum → JSNum
  | .fin a, .fin b => if b = 0 then .nan else .fin (a - b * (truncate (a / b) : ℚ))
  | .fin a, .posInf => .fin a
  | .fin a, .negInf => .fin a
  | _, _ => .nan

/-- The `===` operator on Numbers (NaN differs from everything). -/
def JSNum.strictEq : JSNum → JSNum → Bool
  | .nan, _ => false
  | _, .nan => false
  | x, y => decide (x = y)

/-- The character of a decimal digit `d < 10`. -/
def digitChar (d : Nat) : Char := Char.ofNat (48 + d)

/-- Decimal digits of a natural number, most significant first, from a fuel bound. -/
def decimalDigitsAux : Nat → Nat → List Char → List Char
  | 0, _, acc => acc
  | fuel + 1, n, acc =>
    if n < 10 then digitChar n :: acc
    else decimalDigitsAux fuel (n / 10) (digitChar (n % 10) :: acc)

/-- Decimal digits of a natural number, most significant first (`0` gives `"0"`). -/
def decimalDigits (n : Nat) : List Char := decimalDigitsAux (n + 1) n []

/-- The last `k` decimal digits of `f`, zero padded, most significant first. -/
def fixedDigits : Nat → Nat → List Char
  | 0, _ => []
  | k + 1, f => fixedDigits k (f / 10) ++ [digitChar (f % 10)]

/-- Remove up to `cut` trailing zeros; the digits are given least significant first. -/
def dropZeros : Nat → List Char → List Char
  | cut + 1, '0' :: rest => dropZeros cut rest
  | _, ds => ds

/-- Separators of the higher groups (two digits each); digits least significant first. -/
def groupPairs : List Char → List Char
  | a :: b :: c :: rest => a :: b :: ',' :: groupPairs (c :: rest)
  | ds => ds

/-- The `en-IN` grouping: a group of three, then groups of two; least significant first. -/
def groupIndianRev : List Char → List Char
  | a :: b :: c :: d :: rest => a :: b :: c :: ',' :: groupPairs (d :: rest)
  | ds => ds

/-- The `en-IN` grouping of an integer digit string. -/
def groupIndian (ds : List Char) : List Char := (groupIndianRev ds.reverse).reverse

/-- The magnitude scaled by `10 ^ maxFrac` and rounded to an integer, ties away from zero. -/
def scaledMagnitude (q : ℚ) (maxFrac : Nat) : Nat :=
  (⌊|q| * (10 ^ maxFrac : ℕ) + 1 / 2⌋ : ℤ).toNat

/-- The fraction digits shown: `maxFrac` digits, trailing zeros removed down to `minFrac`. -/
def fractionDigits (q : ℚ) (minFrac maxFrac : Nat) : List Char :=
  (dropZeros (maxFrac - minFrac)
    (fixedDigits maxFrac (scaledMagnitude q maxFrac % 10 ^ maxFrac)).reverse).reverse

/-- The grouped integer digits shown. -/
def integerDigits (q : ℚ) (maxFrac : Nat) : List Char :=
  groupIndian (decimalDigits (scaledMagnitude q maxFrac / 10 ^ maxFrac))

/-- The call `value.toLocaleString` for the locale en-IN with the options
maximumFractionDigits and minimumFractionDigits, decimal style: sign, grouped integer
digits, and the fraction digits after a `.`. -/
def toLocaleStringEnIN (value : JSNum) (maxFrac minFrac : Nat) : String :=
  match value with
  | .nan => "NaN"
  | .posInf => "∞"
  | .negInf => "-∞"
  | .fin q =>
    String.mk ((if q < 0 then ['-'] else []) ++ integerDigits q maxFrac ++
      (if fractionDigits q minFrac maxFrac = [] then []
       else '.' :: fractionDigits q minFrac maxFrac))

/-- The function `formatCurrency`. -/
def formatCurrency (value : JSNum) : String :=
  if !value.isFinite then "0"
  else toLocaleStringEnIN value 2 (if JSNum.strictEq (JSNum.rem value (.fin 1)) (.fin 0) then 0 else 1)

/-! ## The summary text (`shareText`, line 50) -/

/-- The template literal of line 50.  `toStr` is the Number-to-String conversion applied to
an interpolated Number. -/
def shareText (toStr : JSNum → String) (c : Computed) (includeOwner : Bool) : String :=
  "TRIP COST SPLIT\n---------------\nTotal Cost: Rs " ++ formatCurrency c.totalCost ++
  "\nDistance: " ++ toStr c.safeDistance ++
  " km\nMileage: " ++ toStr c.safeMileage ++
  " km/l\nFuel Price: Rs " ++ formatCurrency c.safeFuelPrice ++
  "/l\nPeople: " ++ toStr c.safePeople ++
  "\n\nSPLIT:\nEach person pays: Rs " ++ formatCurrency c.eachPersonPays ++
  "\n(" ++ toStr c.payablePeople ++ " people paying" ++
  (if includeOwner then " including owner" else " excluding owner") ++ ")"

/-! ## The form state and its handlers (lines 4-7, 18-26, 52-74, 130-233) -/

/-- The three values the fuel selector passes to `handleFuelSelect`. -/
inductive FuelType where
  | petrol
  | diesel
  | custom
  deriving DecidableEq

/-- The lookup `fuelPresets[type]` in the table of lines 4-7 (a missing key is `undefined`). -/
def fuelPresets : FuelType → JSValue
  | .petrol => .num (roundDouble (1074 / 10))
  | .diesel => .num (roundDouble (962 / 10))
  | .custom => .undefined

/-- The `useState` cells of `App`. -/
structure AppState where
  distance : JSValue
  mileage : JSValue
  people : JSValue
  fuelType : FuelType
  fuelPrice : JSValue
  includeOwner : Bool
  roundTo : JSNum
  copied : Bool
  hasCalculated : Bool
  deriving DecidableEq

/-- The initial values of lines 18-26. -/
def initialState : AppState :=
  { distance := .num (.fin 120)
    mileage := .num (.fin 40)
    people := .num (.fin 3)
    fuelType := .petrol
    fuelPrice := fuelPresets .petrol
    includeOwner := true
    roundTo := .fin 1
    copied := false
    hasCalculated := true }

/-- The handler `handleFuelSelect` (lines 52-57). -/
def handleFuelSelect (type : FuelType) (s : AppState) : AppState :=
  let s1 := { s with fuelType := type, hasCalculated := false }
  if type = .custom then s1
  else { s1 with fuelPrice := fuelPresets type }

/-- The handler `handleRecalc` (lines 59-62). -/
def handleRecalc (s : AppState) : AppState :=
  { s with hasCalculated := true, copied := false }

/-- The handler `resetForm` (lines 64-74). -/
def resetForm (_s : AppState) : AppState :=
  { distance := .num (.fin 120)
    mileage := .num (.fin 40)
    people := .num (.fin 3)
    fuelType := .petrol
    fuelPrice := fuelPresets .petrol
    includeOwner := true
    roundTo := .fin 1
    copied := false
    hasCalculated := true }

/-- The `onChange` handler of the fuel price field (lines 185-189). -/
def fuelPriceChange (value : String) (s : AppState) : AppState :=
  { s with fuelType := .custom, fuelPrice := .str value, hasCalculated := false }

/-- The events of the form.  An input field delivers its `e.target.value`, a string; the two
`copy` events are the state writes `copySummary` can cause once the clipboard call settles
and once its timer fires. -/
inductive Event where
  | fuelSelect (type : FuelType)
  | fuelPriceEdit (value : String)
  | distanceEdit (value : String)
  | mileageEdit (value : String)
  | peopleEdit (value : String)
  | includeOwnerEdit (checked : Bool)
  | roundToEdit (value : String)
  | recalc
  | reset
  | copySettled (ok : Bool)
  | copyExpired

/-- The state after one event. -/
def step (s : AppState) : Event → AppState
  | .fuelSelect type => handleFuelSelect type s
  | .fuelPriceEdit value => fuelPriceChange value s
  | .distanceEdit value => { s with distance := .str value, hasCalculated := false }
  | .mileageEdit value => { s with mileage := .str value, hasCalculated := false }
  | .peopleEdit value => { s with people := .str value, hasCalculated := false }
  | .includeOwnerEdit checked => { s with includeOwner := checked, hasCalculated := false }
  | .roundToEdit value => { s with roundTo := toNumber (.str value), hasCalculated := false }
  | .recalc => handleRecalc s
  | .reset => resetForm s
  | .copySettled ok => { s with copied := ok }
  | .copyExpired => { s with copied := false }

/-- The state after a sequence of events, starting from the initial state. -/
def run (events : List Event) : AppState := events.foldl step initialState

/-- The selector agrees with the stored price: a preset type stores the price of that preset. -/
def FuelConsistent (s : AppState) : Prop :=
  (s.fuelType = .petrol → s.fuelPrice = .num (roundDouble (1074 / 10))) ∧
  (s.fuelType = .diesel → s.fuelPrice = .num (roundDouble (962 / 10)))

/-- Number of characters a rendering shows after its decimal point (0 without a point). -/
def shownFractionDigits (s : String) : Nat :=
  match s.toList.dropWhile (fun c => c != '.') with
  | [] => 0
  | _ :: frac => frac.length

/-! ## Rounding to binary64 -/

theorem pow2_eq_zpow (e : ℤ) : pow2 e = (2 : ℚ) ^ e := by
  unfold pow2
  split_ifs with h
  · obtain ⟨n, rfl⟩ := Int.eq_ofNat_of_zero_le h
    simp
  · have h1 : 0 ≤ -e := by omega
    obtain ⟨n, hn⟩ := Int.eq_ofNat_of_zero_le h1
    have h2 : e = -(n : ℤ) := by omega
    subst h2
    simp

theorem pow2_pos (e : ℤ) : 0 < pow2 e := by
  rw [pow2_eq_zpow]; positivity

theorem pow2_add (a b : ℤ) : pow2 (a + b) = pow2 a * pow2 b := by
  simp only [pow2_eq_zpow]
  exact zpow_add₀ (by norm_num) a b

theorem pow2_le_pow2 {a b : ℤ} (h : a ≤ b) : pow2 a ≤ pow2 b := by
  simp only [pow2_eq_zpow]
  exact zpow_le_zpow_right₀ (by norm_num) h

theorem pow2_lt_pow2_iff {a b : ℤ} : pow2 a < pow2 b ↔ a < b := by
  simp only [pow2_eq_zpow]
  exact zpow_lt_zpow_iff_right₀ (by norm_num)

theorem pow2_natCast (n : ℕ) : pow2 (n : ℤ) = ((2 ^ n : ℕ) : ℚ) := by
  simp [pow2]

theorem log2Aux_eq (fuel n : Nat) (h : n ≤ fuel) : log2Aux fuel n = Nat.log2 n := by
  induction fuel generalizing n with
  | zero =>
    have : n = 0 := by omega
    subst this
    simp [log2Aux]
  | succ k ih =>
    unfold log2Aux
    rw [Nat.log2]
    split_ifs with h1 h2 h2
    · omega
    · rfl
    · rw [ih (n / 2) (by omega)]
    · omega

theorem natLog2_eq (n : Nat) : natLog2 n = Nat.log2 n := log2Aux_eq n n (le_refl _)

theorem natLog2_le (n : Nat) (h : n ≠ 0) : 2 ^ natLog2 n ≤ n := by
  rw [natLog2_eq]; exact Nat.log2_self_le h

theorem natLog2_lt (n : Nat) : n < 2 ^ (natLog2 n + 1) := by
  rw [natLog2_eq]; exact Nat.lt_log2_self

theorem ratio_bracket (a b q : ℚ) (la lb : ℤ) (hq : q = a / b) (hbpos : 0 < b)
    (ha1 : pow2 la ≤ a) (ha2 : a < pow2 (la + 1))
    (hb1 : pow2 lb ≤ b) (hb2 : b < pow2 (lb + 1)) :
    pow2 (la - lb - 1) < q ∧ q < pow2 (la - lb + 1) := by
  constructor
  · have e1 : pow2 la = pow2 (la - lb - 1) * pow2 (lb + 1) := by
      rw [← pow2_add]; congr 1; ring
    rw [hq, lt_div_iff₀ hbpos]
    calc pow2 (la - lb - 1) * b < pow2 (la - lb - 1) * pow2 (lb + 1) :=
          mul_lt_mul_of_pos_left hb2 (pow2_pos _)
      _ = pow2 la := e1.symm
      _ ≤ a := ha1
  · have e1 : pow2 (la + 1) = pow2 (la - lb + 1) * pow2 lb := by
      rw [← pow2_add]; congr 1; ring
    rw [hq, div_lt_iff₀ hbpos]
    calc a < pow2 (la + 1) := ha2
      _ = pow2 (la - lb + 1) * pow2 lb := e1
      _ ≤ pow2 (la - lb + 1) * b := mul_le_mul_of_nonneg_left hb1 (le_of_lt (pow2_pos _))

/-- The binary exponent brackets a positive rational between two powers of two. -/
theorem binaryExponent_spec (q : ℚ) (hq : 0 < q) :
    pow2 (binaryExponent q) ≤ q ∧ q < pow2 (binaryExponent q + 1) := by
  have hnum : 0 < q.num := Rat.num_pos.mpr hq
  have ha0 : q.num.natAbs ≠ 0 := by
    intro h; rw [Int.natAbs_eq_zero] at h; omega
  have hb0 : q.den ≠ 0 := q.den_nz
  have h1 : ((q.num.natAbs : ℕ) : ℤ) = q.num := Int.natAbs_of_nonneg (le_of_lt hnum)
  have h2 : ((q.num.natAbs : ℕ) : ℚ) = (q.num : ℚ) :=
    calc ((q.num.natAbs : ℕ) : ℚ) = (((q.num.natAbs : ℕ) : ℤ) : ℚ) := (Int.cast_natCast _).symm
      _ = (q.num : ℚ) := by rw [h1]
  have hq' : q = ((q.num.natAbs : ℕ) : ℚ) / (q.den : ℚ) := by
    rw [h2]
    exact (Rat.num_div_den q).symm
  have hbpos : (0 : ℚ) < (q.den : ℚ) := by exact_mod_cast Nat.pos_of_ne_zero hb0
  have ha1 : (pow2 (natLog2 q.num.natAbs : ℤ)) ≤ ((q.num.natAbs : ℕ) : ℚ) := by
    rw [pow2_natCast]; exact_mod_cast natLog2_le _ ha0
  have ha2 : ((q.num.natAbs : ℕ) : ℚ) < pow2 ((natLog2 q.num.natAbs : ℤ) + 1) := by
    have := natLog2_lt q.num.natAbs
    have h3 : ((natLog2 q.num.natAbs : ℤ) + 1) = ((natLog2 q.num.natAbs + 1 : ℕ) : ℤ) := by
      push_cast; rfl
    rw [h3, pow2_natCast]; exact_mod_cast this
  have hb1 : (pow2 (natLog2 q.den : ℤ)) ≤ (q.den : ℚ) := by
    rw [pow2_natCast]; exact_mod_cast natLog2_le _ hb0
  have hb2 : (q.den : ℚ) < pow2 ((natLog2 q.den : ℤ) + 1) := by
    have := natLog2_lt q.den
    have h3 : ((natLog2 q.den : ℤ) + 1) = ((natLog2 q.den + 1 : ℕ) : ℤ) := by
      push_cast; rfl
    rw [h3, pow2_natCast]; exact_mod_cast this
  obtain ⟨hlo, hup⟩ := ratio_bracket _ _ q _ _ hq' hbpos ha1 ha2 hb1 hb2
  unfold binaryExponent
  split_ifs with h
  · exact ⟨h, hup⟩
  · refine ⟨le_of_lt hlo, ?_⟩
    have e2 : (natLog2 q.num.natAbs : ℤ) - (natLog2 q.den : ℤ) - 1 + 1
        = (natLog2 q.num.natAbs : ℤ) - (natLog2 q.den : ℤ) := by ring
    rw [e2]
    exact lt_of_not_le h

theorem roundHalfEven_intCast (z : ℤ) : roundHalfEven (z : ℚ) = z := by
  unfold roundHalfEven
  simp

theorem floor_le_roundHalfEven (x : ℚ) : ⌊x⌋ ≤ roundHalfEven x := by
  unfold roundHalfEven
  split_ifs <;> omega

theorem roundHalfEven_le_floor_add_one (x : ℚ) : roundHalfEven x ≤ ⌊x⌋ + 1 := by
  unfold roundHalfEven
  split_ifs <;> omega

theorem roundHalfEven_nonneg (x : ℚ) (hx : 0 ≤ x) : 0 ≤ roundHalfEven x :=
  le_trans (Int.floor_nonneg.mpr hx) (floor_le_roundHalfEven x)

theorem le_roundHalfEven (x : ℚ) (k : ℤ) (h : (k : ℚ) ≤ x) : k ≤ roundHalfEven x :=
  le_trans (Int.le_floor.mpr h) (floor_le_roundHalfEven x)

theorem roundHalfEven_le (x : ℚ) (k : ℤ) (h : x ≤ (k : ℚ)) : roundHalfEven x ≤ k := by
  rcases lt_or_eq_of_le h with h1 | h1
  · have h2 : ⌊x⌋ < k := Int.floor_lt.mpr h1
    have := roundHalfEven_le_floor_add_one x
    omega
  · rw [h1, roundHalfEven_intCast]

theorem roundDouble_zero : roundDouble 0 = .fin 0 := by
  simp [roundDouble]

theorem ulp_pos (q : ℚ) : 0 < ulp q := pow2_pos _

/-- The rounded magnitude of `q` in units of its spacing. -/
theorem roundDouble_eq (q : ℚ) (hq : q ≠ 0) :
    roundDouble q =
      if pow2 1024 ≤ (roundHalfEven (|q| / ulp q) : ℚ) * ulp q then
        (if 0 < q then .posInf else .negInf)
      else .fin (if 0 < q then (roundHalfEven (|q| / ulp q) : ℚ) * ulp q
                 else -((roundHalfEven (|q| / ulp q) : ℚ) * ulp q)) := by
  simp [roundDouble, hq]

theorem roundDouble_ne_nan (q : ℚ) : roundDouble q ≠ .nan := by
  unfold roundDouble
  split_ifs <;> simp

/-- Rounding keeps the sign: a non-negative value rounds to `+Infinity` or to a
non-negative finite value. -/
theorem roundDouble_nonneg (q : ℚ) (hq : 0 ≤ q) :
    roundDouble q = .posInf ∨ ∃ r : ℚ, 0 ≤ r ∧ roundDouble q = .fin r := by
  by_cases h0 : q = 0
  · right; exact ⟨0, le_refl _, by rw [h0, roundDouble_zero]⟩
  · have hpos : 0 < q := lt_of_le_of_ne hq (Ne.symm h0)
    rw [roundDouble_eq q h0]
    split_ifs with h
    · left; rfl
    · right
      refine ⟨_, ?_, rfl⟩
      have h1 : 0 ≤ |q| / ulp q := div_nonneg (abs_nonneg _) (le_of_lt (ulp_pos q))
      have h2 : (0 : ℚ) ≤ (roundHalfEven (|q| / ulp q) : ℚ) := by
        exact_mod_cast roundHalfEven_nonneg _ h1
      exact mul_nonneg h2 (le_of_lt (ulp_pos q))

theorem pow2_53 : pow2 53 = 9007199254740992 := by
  decide!

theorem pow2_52 : pow2 52 = 4503599627370496 := by
  decide!

theorem pow2_zero : pow2 0 = 1 := by
  norm_num [pow2]

theorem pow2_of_nonneg (k : ℤ) (hk : 0 ≤ k) : pow2 k = ((2 ^ k.toNat : ℤ) : ℚ) := by
  unfold pow2
  rw [if_pos hk]
  push_cast
  rfl

/-- The exponent of the spacing of `q`. -/
theorem ulp_eq (q : ℚ) : ulp q = pow2 (max (binaryExponent |q|) (-1022) - 52) := rfl

/-- A binary64 value is its own rounding. -/
theorem roundDouble_of_isDouble (x : ℚ) (hx : IsDouble x) : roundDouble x = .fin x := by
  obtain ⟨m, t, hm, ht1, ht2, rfl⟩ := hx
  by_cases hm0 : m = 0
  · subst hm0
    simp [roundDouble_zero]
  have hmq : (m : ℚ) ≠ 0 := by exact_mod_cast hm0
  have hx0 : (m : ℚ) * pow2 t ≠ 0 := mul_ne_zero hmq (ne_of_gt (pow2_pos t))
  have habs : |(m : ℚ) * pow2 t| = ((|m| : ℤ) : ℚ) * pow2 t := by
    rw [abs_mul, abs_of_pos (pow2_pos t)]
    push_cast
    rfl
  have hapos : 0 < |(m : ℚ) * pow2 t| := abs_pos.mpr hx0
  have hm' : ((|m| : ℤ) : ℚ) < pow2 53 := by
    rw [pow2_53]
    exact_mod_cast hm
  have hlt : |(m : ℚ) * pow2 t| < pow2 (53 + t) := by
    rw [habs, pow2_add]
    exact mul_lt_mul_of_pos_right hm' (pow2_pos t)
  obtain ⟨he1, _⟩ := binaryExponent_spec _ hapos
  have he : binaryExponent |(m : ℚ) * pow2 t| < 53 + t :=
    pow2_lt_pow2_iff.mp (lt_of_le_of_lt he1 hlt)
  have hs : max (binaryExponent |(m : ℚ) * pow2 t|) (-1022) - 52 ≤ t := by
    rcases le_total (binaryExponent |(m : ℚ) * pow2 t|) (-1022) with h | h
    · rw [max_eq_right h]; omega
    · rw [max_eq_left h]; omega
  have hu := ulp_eq ((m : ℚ) * pow2 t)
  generalize max (binaryExponent |(m : ℚ) * pow2 t|) (-1022) - 52 = s at hs hu
  have hk : 0 ≤ t - s := by omega
  have hsplit : pow2 t = ((2 ^ (t - s).toNat : ℤ) : ℚ) * pow2 s := by
    rw [← pow2_of_nonneg _ hk, ← pow2_add]
    congr 1
    ring
  have hquot : |(m : ℚ) * pow2 t| / ulp ((m : ℚ) * pow2 t)
      = ((|m| * 2 ^ (t - s).toNat : ℤ) : ℚ) := by
    rw [hu, habs, hsplit]
    have := ne_of_gt (pow2_pos s)
    field_simp
    ring
  have hround : (roundHalfEven (|(m : ℚ) * pow2 t| / ulp ((m : ℚ) * pow2 t)) : ℚ)
      * ulp ((m : ℚ) * pow2 t) = |(m : ℚ) * pow2 t| := by
    rw [hquot, roundHalfEven_intCast, ← hquot]
    exact div_mul_cancel₀ _ (ne_of_gt (ulp_pos _))
  rw [roundDouble_eq _ hx0, hround]
  have hbig : ¬ pow2 1024 ≤ |(m : ℚ) * pow2 t| := by
    rw [not_le]
    exact lt_of_lt_of_le hlt (pow2_le_pow2 (by omega))
  rw [if_neg hbig]
  congr 1
  split_ifs with hpos
  · exact abs_of_pos hpos
  · have hneg : (m : ℚ) * pow2 t < 0 := lt_of_le_of_ne (not_lt.mp hpos) hx0
    rw [abs_of_neg hneg]
    ring

/-- The spacing of a non-zero `q` is `2 ^ s` with `s ≥ -1074`; `|q|` lies below `2 ^ (s + 53)`
and, outside the subnormal range, at or above `2 ^ (s + 52)`. -/
theorem ulp_spec (q : ℚ) (hq : q ≠ 0) :
    ∃ s : ℤ, ulp q = pow2 s ∧ -1074 ≤ s ∧ |q| < pow2 (s + 53) ∧
      (-1074 < s → pow2 (s + 52) ≤ |q|) := by
  obtain ⟨he1, he2⟩ := binaryExponent_spec _ (abs_pos.mpr hq)
  refine ⟨max (binaryExponent |q|) (-1022) - 52, rfl, ?_, ?_, ?_⟩
  · have := le_max_right (binaryExponent |q|) (-1022)
    omega
  · refine lt_of_lt_of_le he2 (pow2_le_pow2 ?_)
    have := le_max_left (binaryExponent |q|) (-1022)
    omega
  · intro hs
    rcases le_total (binaryExponent |q|) (-1022) with h | h
    · rw [max_eq_right h] at hs; omega
    · rw [max_eq_left h]
      have e : binaryExponent |q| - 52 + 52 = binaryExponent |q| := by ring
      rw [e]
      exact he1

/-- The rounded magnitude in units of the spacing is at most `2 ^ 53`. -/
theorem roundHalfEven_units (q : ℚ) (hq : q ≠ 0) :
    0 ≤ roundHalfEven (|q| / ulp q) ∧ roundHalfEven (|q| / ulp q) ≤ 2 ^ 53 := by
  obtain ⟨s, hu, _, hlt, _⟩ := ulp_spec q hq
  constructor
  · exact roundHalfEven_nonneg _ (div_nonneg (abs_nonneg _) (le_of_lt (ulp_pos q)))
  · apply roundHalfEven_le
    rw [hu, div_le_iff₀ (pow2_pos s)]
    have e : pow2 (s + 53) = ((2 ^ 53 : ℤ) : ℚ) * pow2 s := by
      rw [add_comm, pow2_add, pow2_53]
      norm_num
    rw [← e]
    exact le_of_lt hlt

theorem isDouble_zero : IsDouble 0 := ⟨0, 0, by norm_num, by norm_num, by norm_num, by simp⟩

theorem isDouble_neg (x : ℚ) (h : IsDouble x) : IsDouble (-x) := by
  obtain ⟨m, t, hm, ht1, ht2, rfl⟩ := h
  exact ⟨-m, t, by rw [abs_neg]; exact hm, ht1, ht2, by push_cast; ring⟩

/-- A rounded magnitude below `2 ^ 1024` is a binary64 value. -/
theorem isDouble_magnitude (q : ℚ) (h0 : q ≠ 0)
    (hbig : ¬ pow2 1024 ≤ (roundHalfEven (|q| / ulp q) : ℚ) * ulp q) :
    IsDouble ((roundHalfEven (|q| / ulp q) : ℚ) * ulp q) := by
  obtain ⟨s, hu, hs, hlt, hnorm⟩ := ulp_spec q h0
  obtain ⟨hn0, hn1⟩ := roundHalfEven_units q h0
  rw [not_le] at hbig
  have hn3 : -1074 < s → (2 ^ 52 : ℤ) ≤ roundHalfEven (|q| / ulp q) := by
    intro hs1
    apply le_roundHalfEven
    rw [hu, le_div_iff₀ (pow2_pos s)]
    have e : pow2 (s + 52) = ((2 ^ 52 : ℤ) : ℚ) * pow2 s := by
      rw [add_comm, pow2_add, pow2_52]
      norm_num
    rw [← e]
    exact hnorm hs1
  generalize roundHalfEven (|q| / ulp q) = n at hbig hn0 hn1 hn3 ⊢
  rw [hu] at hbig ⊢
  rcases lt_or_eq_of_le hn1 with hn2 | hn2
  · refine ⟨n, s, by rw [abs_of_nonneg hn0]; exact hn2, hs, ?_, rfl⟩
    by_contra hcon
    have hs2 : 972 ≤ s := by omega
    have hn4 : pow2 52 ≤ (n : ℚ) := by
      rw [pow2_52]
      exact_mod_cast hn3 (by omega)
    have h1 : pow2 1024 ≤ (n : ℚ) * pow2 s :=
      calc pow2 1024 ≤ pow2 (52 + s) := pow2_le_pow2 (by omega)
        _ = pow2 52 * pow2 s := pow2_add _ _
        _ ≤ (n : ℚ) * pow2 s := mul_le_mul_of_nonneg_right hn4 (le_of_lt (pow2_pos s))
    exact absurd hbig (not_lt.mpr h1)
  · subst hn2
    have e : ((2 ^ 53 : ℤ) : ℚ) * pow2 s = pow2 (53 + s) := by
      rw [pow2_add, pow2_53]
      norm_num
    have e2 : ((2 ^ 53 : ℤ) : ℚ) * pow2 s = ((2 ^ 52 : ℤ) : ℚ) * pow2 (s + 1) := by
      have e3 : (53 : ℤ) + s = 52 + (s + 1) := by ring
      rw [e, e3, pow2_add, pow2_52]
      norm_num
    rw [e] at hbig
    have hs3 : 53 + s < 1024 := pow2_lt_pow2_iff.mp hbig
    exact ⟨2 ^ 52, s + 1, by norm_num, by omega, by omega, e2⟩

/-- A finite result of rounding is a binary64 value. -/
theorem isDouble_of_roundDouble (q x : ℚ) (h : roundDouble q = .fin x) : IsDouble x := by
  by_cases h0 : q = 0
  · rw [h0, roundDouble_zero] at h
    cases h
    exact isDouble_zero
  rw [roundDouble_eq q h0] at h
  by_cases hbig : pow2 1024 ≤ (roundHalfEven (|q| / ulp q) : ℚ) * ulp q
  · rw [if_pos hbig] at h
    split_ifs at h
  · rw [if_neg hbig] at h
    have hmag := isDouble_magnitude q h0 hbig
    cases h
    split_ifs
    · exact hmag
    · exact isDouble_neg _ hmag

/-- Rounding is idempotent. -/
theorem roundDouble_idem (q x : ℚ) (h : roundDouble q = .fin x) : roundDouble x = .fin x :=
  roundDouble_of_isDouble x (isDouble_of_roundDouble q x h)

/-- The magnitude of a binary64 value is at most `(2 ^ 53 - 1) * 2 ^ 971`. -/
theorem isDouble_abs_le (b : ℚ) (hb : IsDouble b) :
    |b| ≤ ((2 ^ 53 - 1 : ℤ) : ℚ) * pow2 971 := by
  obtain ⟨m, t, hm, _, ht2, rfl⟩ := hb
  rw [abs_mul, abs_of_pos (pow2_pos t)]
  have h1 : |(m : ℚ)| ≤ ((2 ^ 53 - 1 : ℤ) : ℚ) := by
    have : |m| ≤ 2 ^ 53 - 1 := by omega
    have h2 : ((|m| : ℤ) : ℚ) ≤ ((2 ^ 53 - 1 : ℤ) : ℚ) := by exact_mod_cast this
    rw [Int.cast_abs] at h2
    exact h2
  exact mul_le_mul h1 (pow2_le_pow2 ht2) (le_of_lt (pow2_pos t)) (by norm_num)

/-- A value no larger in magnitude than a binary64 value rounds to a finite value. -/
theorem roundDouble_finite_of_le (q b : ℚ) (hb : IsDouble b) (hq : |q| ≤ |b|) :
    ∃ x : ℚ, roundDouble q = .fin x := by
  by_cases h0 : q = 0
  · exact ⟨0, by rw [h0, roundDouble_zero]⟩
  have hM : |q| ≤ ((2 ^ 53 - 1 : ℤ) : ℚ) * pow2 971 := le_trans hq (isDouble_abs_le b hb)
  obtain ⟨s, hu, hs, hlt, hnorm⟩ := ulp_spec q h0
  obtain ⟨hn0, hn1⟩ := roundHalfEven_units q h0
  have hM2 : ((2 ^ 53 - 1 : ℤ) : ℚ) * pow2 971 < pow2 1024 := by
    have e : pow2 1024 = ((2 ^ 53 : ℤ) : ℚ) * pow2 971 := by
      have : (1024 : ℤ) = 53 + 971 := by norm_num
      rw [this, pow2_add, pow2_53]
      norm_num
    rw [e]
    exact mul_lt_mul_of_pos_right (by norm_num) (pow2_pos _)
  have hbig : ¬ pow2 1024 ≤ (roundHalfEven (|q| / ulp q) : ℚ) * ulp q := by
    rw [not_le]
    have hn5 : s = 971 → roundHalfEven (|q| / ulp q) ≤ 2 ^ 53 - 1 := by
      intro hs4
      apply roundHalfEven_le
      rw [hu, hs4, div_le_iff₀ (pow2_pos _)]
      exact hM
    generalize roundHalfEven (|q| / ulp q) = n at hn0 hn1 hn5 ⊢
    rw [hu]
    by_cases hs1 : s ≤ 970
    · have h1 : (n : ℚ) ≤ pow2 53 := by
        rw [pow2_53]
        exact_mod_cast hn1
      calc (n : ℚ) * pow2 s
          ≤ pow2 53 * pow2 s := mul_le_mul_of_nonneg_right h1 (le_of_lt (pow2_pos s))
        _ = pow2 (53 + s) := (pow2_add _ _).symm
        _ < pow2 1024 := pow2_lt_pow2_iff.mpr (by omega)
    · have hs2 : 971 ≤ s := by omega
      have h52 : pow2 (s + 52) ≤ |q| := hnorm (by omega)
      have hs3 : s + 52 < 1024 := pow2_lt_pow2_iff.mp (lt_of_le_of_lt h52 (lt_of_le_of_lt hM hM2))
      have hs4 : s = 971 := by omega
      have hn6 : (n : ℚ) ≤ ((2 ^ 53 - 1 : ℤ) : ℚ) := by
        exact_mod_cast hn5 hs4
      rw [hs4]
      exact lt_of_le_of_lt (mul_le_mul_of_nonneg_right hn6 (le_of_lt (pow2_pos _))) hM2
  rw [roundDouble_eq q h0, if_neg hbig]
  exact ⟨_, rfl⟩

theorem roundHalfEven_error (y : ℚ) : |(roundHalfEven y : ℚ) - y| ≤ 1 / 2 := by
  have h1 : ((⌊y⌋ : ℤ) : ℚ) ≤ y := Int.floor_le y
  have h2 : y < ((⌊y⌋ : ℤ) : ℚ) + 1 := Int.lt_floor_add_one y
  unfold roundHalfEven
  rw [abs_le]
  split_ifs with ha hb hc
  · constructor <;> linarith
  · push_cast; constructor <;> linarith
  · have hd : y - ⌊y⌋ = 1 / 2 := le_antisymm (not_lt.mp hb) (not_lt.mp ha)
    constructor <;> linarith
  · have hd : y - ⌊y⌋ = 1 / 2 := le_antisymm (not_lt.mp hb) (not_lt.mp ha)
    push_cast; constructor <;> linarith

/-- The shape of a finite rounding of a positive value: a non-negative multiple `n * 2 ^ s`
of the spacing, within half a spacing of the value. -/
theorem roundDouble_pos_spec (q x : ℚ) (hq : 0 < q) (h : roundDouble q = .fin x) :
    ∃ (s n : ℤ), -1074 ≤ s ∧ x = (n : ℚ) * pow2 s ∧ 0 ≤ n ∧ n ≤ 2 ^ 53 ∧
      |x - q| ≤ pow2 s / 2 ∧ q < pow2 (s + 53) ∧
      (-1074 < s → pow2 (s + 52) ≤ q ∧ 2 ^ 52 ≤ n) := by
  have h0 : q ≠ 0 := ne_of_gt hq
  obtain ⟨s, hu, hs, hlt, hnorm⟩ := ulp_spec q h0
  obtain ⟨hn0, hn1⟩ := roundHalfEven_units q h0
  have herr := roundHalfEven_error (|q| / ulp q)
  rw [abs_of_pos hq] at hlt hnorm
  have hn3 : -1074 < s → (2 ^ 52 : ℤ) ≤ roundHalfEven (|q| / ulp q) := by
    intro hs1
    apply le_roundHalfEven
    rw [hu, abs_of_pos hq, le_div_iff₀ (pow2_pos s)]
    have e : pow2 (s + 52) = ((2 ^ 52 : ℤ) : ℚ) * pow2 s := by
      rw [add_comm, pow2_add, pow2_52]
      norm_num
    rw [← e]
    exact hnorm hs1
  rw [roundDouble_eq q h0] at h
  by_cases hbig : pow2 1024 ≤ (roundHalfEven (|q| / ulp q) : ℚ) * ulp q
  · rw [if_pos hbig, if_pos hq] at h
    cases h
  · rw [if_neg hbig, if_pos hq] at h
    injection h with hx
    rw [abs_of_pos hq, hu] at herr hx
    rw [abs_of_pos hq, hu] at hn0 hn1 hn3
    refine ⟨s, roundHalfEven (q / pow2 s), hs, hx.symm, hn0, hn1, ?_, hlt,
      fun hs1 => ⟨hnorm hs1, hn3 hs1⟩⟩
    rw [← hx]
    have hp := pow2_pos s
    have e : (roundHalfEven (q / pow2 s) : ℚ) * pow2 s - q
        = ((roundHalfEven (q / pow2 s) : ℚ) - q / pow2 s) * pow2 s := by
      field_simp
    rw [e, abs_mul, abs_of_pos hp]
    calc |(roundHalfEven (q / pow2 s) : ℚ) - q / pow2 s| * pow2 s
        ≤ 1 / 2 * pow2 s := mul_le_mul_of_nonneg_right herr (le_of_lt hp)
      _ = pow2 s / 2 := by ring

/-- A binary64 value lies on the grid of spacing `2 ^ s` when `s` is at the subnormal
spacing or the value is at least `2 ^ (s + 52)` in magnitude. -/
theorem isDouble_grid (a : ℚ) (ha : IsDouble a) (s : ℤ)
    (hs : s ≤ -1074 ∨ pow2 (s + 52) ≤ |a|) : ∃ z : ℤ, a = (z : ℚ) * pow2 s := by
  obtain ⟨m, t, hm, ht1, _, rfl⟩ := ha
  have hst : s ≤ t := by
    rcases hs with h | h
    · omega
    · have hm' : ((|m| : ℤ) : ℚ) < pow2 53 := by
        rw [pow2_53]
        exact_mod_cast hm
      have habs : |(m : ℚ) * pow2 t| = ((|m| : ℤ) : ℚ) * pow2 t := by
        rw [abs_mul, abs_of_pos (pow2_pos t)]
        push_cast
        rfl
      have hlt : |(m : ℚ) * pow2 t| < pow2 (53 + t) := by
        rw [habs, pow2_add]
        exact mul_lt_mul_of_pos_right hm' (pow2_pos t)
      have := pow2_lt_pow2_iff.mp (lt_of_le_of_lt h hlt)
      omega
  have hk : 0 ≤ t - s := by omega
  have hsplit : pow2 t = ((2 ^ (t - s).toNat : ℤ) : ℚ) * pow2 s := by
    rw [← pow2_of_nonneg _ hk, ← pow2_add]
    congr 1
    ring
  refine ⟨m * 2 ^ (t - s).toNat, ?_⟩
  rw [hsplit]
  push_cast
  ring

/-- Rounding does not fall below a binary64 value that the exact value reaches. -/
theorem le_roundDouble (q x b : ℚ) (hb : IsDouble b) (hb0 : 0 < b) (hbq : b ≤ q)
    (h : roundDouble q = .fin x) : b ≤ x := by
  have hq : 0 < q := lt_of_lt_of_le hb0 hbq
  obtain ⟨s, n, hs, hx, hn0, hn1, herr, hlt, hnorm⟩ := roundDouble_pos_spec q x hq h
  by_contra hcon
  rw [not_le] at hcon
  have hgrid : ∃ z : ℤ, b = (z : ℚ) * pow2 s := by
    apply isDouble_grid b hb s
    rcases eq_or_lt_of_le hs with h1 | h1
    · left; omega
    · right
      obtain ⟨_, hn2⟩ := hnorm h1
      have hx2 : pow2 (s + 52) ≤ x := by
        have e : pow2 (s + 52) = ((2 ^ 52 : ℤ) : ℚ) * pow2 s := by
          rw [add_comm, pow2_add, pow2_52]
          norm_num
        rw [e, hx]
        exact mul_le_mul_of_nonneg_right (by exact_mod_cast hn2) (le_of_lt (pow2_pos s))
      rw [abs_of_pos hb0]
      exact le_trans hx2 (le_of_lt hcon)
  obtain ⟨z, hz⟩ := hgrid
  have hp := pow2_pos s
  have hnz : n < z := by
    have : (n : ℚ) * pow2 s < (z : ℚ) * pow2 s := by rw [← hx, ← hz]; exact hcon
    have h2 : (n : ℚ) < (z : ℚ) := lt_of_mul_lt_mul_right this (le_of_lt hp)
    exact_mod_cast h2
  have hgap : pow2 s ≤ b - x := by
    rw [hz, hx, ← sub_mul]
    have h3 : (1 : ℚ) ≤ (z : ℚ) - (n : ℚ) := by
      have : n + 1 ≤ z := hnz
      have h4 : ((n + 1 : ℤ) : ℚ) ≤ (z : ℚ) := by exact_mod_cast this
      push_cast at h4
      linarith
    calc pow2 s = 1 * pow2 s := (one_mul _).symm
      _ ≤ ((z : ℚ) - (n : ℚ)) * pow2 s := mul_le_mul_of_nonneg_right h3 (le_of_lt hp)
  have h5 := (abs_le.mp herr).1
  linarith

/-- A quotient of a binary64 value by a unit `r` with `2 ^ j ≤ r < 2 ^ (j + 1)` that lies
below `h`, where `h * r` is a binary64 value, rounds to a value below `h`: the quotient is
more than half a spacing away from `h`. -/
theorem roundDouble_div_lt (raw r h x : ℚ) (j : ℤ) (hr1 : pow2 j ≤ r) (hr2 : r < 2 * pow2 j)
    (hraw : IsDouble raw) (hraw0 : 0 ≤ raw) (hv : IsDouble (h * r)) (hh : 1 / 2 ≤ h)
    (hlt : raw / r < h) (hx : roundDouble (raw / r) = .fin x) : x < h := by
  have hr0 : 0 < r := lt_of_lt_of_le (pow2_pos j) hr1
  by_contra hcon
  rw [not_lt] at hcon
  by_cases hq0 : raw / r = 0
  · rw [hq0, roundDouble_zero] at hx
    cases hx
    linarith
  have hq : 0 < raw / r := lt_of_le_of_ne (div_nonneg hraw0 (le_of_lt hr0)) (Ne.symm hq0)
  obtain ⟨s, n, hs, hxn, hn0, hn1, herr, _, hnorm⟩ := roundDouble_pos_spec _ x hq hx
  have hp := pow2_pos s
  have hs1 : -1074 < s := by
    by_contra hs2
    have hs3 : s = -1074 := by omega
    have h1 : x ≤ pow2 53 * pow2 s := by
      rw [hxn, pow2_53]
      exact mul_le_mul_of_nonneg_right (by exact_mod_cast hn1) (le_of_lt hp)
    have h2 : pow2 53 * pow2 s ≤ pow2 (-2) := by
      rw [← pow2_add]
      exact pow2_le_pow2 (by omega)
    have h3 : pow2 (-2) = 1 / 4 := by decide!
    linarith
  obtain ⟨hq52, _⟩ := hnorm hs1
  have hrawq : raw = raw / r * r := (div_mul_cancel₀ raw (ne_of_gt hr0)).symm
  have hraw_ge : pow2 (s + j + 52) ≤ raw := by
    have e : pow2 (s + j + 52) = pow2 (s + 52) * pow2 j := by
      rw [← pow2_add]; congr 1; ring
    rw [e, hrawq]
    exact mul_le_mul hq52 hr1 (le_of_lt (pow2_pos j)) (le_of_lt hq)
  have hvraw : raw < h * r := by
    rw [hrawq]
    exact mul_lt_mul_of_pos_right hlt hr0
  have hraw_pos : 0 < raw := lt_of_lt_of_le (pow2_pos _) hraw_ge
  obtain ⟨z1, hz1⟩ := isDouble_grid raw hraw (s + j)
    (Or.inr (by rw [abs_of_pos hraw_pos]; exact hraw_ge))
  obtain ⟨z2, hz2⟩ := isDouble_grid (h * r) hv (s + j)
    (Or.inr (by
      rw [abs_of_pos (lt_trans hraw_pos hvraw)]
      exact le_trans hraw_ge (le_of_lt hvraw)))
  have hpj := pow2_pos (s + j)
  have hz : z1 < z2 := by
    have : (z1 : ℚ) * pow2 (s + j) < (z2 : ℚ) * pow2 (s + j) := by
      rw [← hz1, ← hz2]; exact hvraw
    have h2 : (z1 : ℚ) < (z2 : ℚ) := lt_of_mul_lt_mul_right this (le_of_lt hpj)
    exact_mod_cast h2
  have hgap : pow2 (s + j) ≤ h * r - raw := by
    rw [hz2, hz1, ← sub_mul]
    have h3 : (1 : ℚ) ≤ (z2 : ℚ) - (z1 : ℚ) := by
      have : z1 + 1 ≤ z2 := hz
      have h4 : ((z1 + 1 : ℤ) : ℚ) ≤ (z2 : ℚ) := by exact_mod_cast this
      push_cast at h4
      linarith
    calc pow2 (s + j) = 1 * pow2 (s + j) := (one_mul _).symm
      _ ≤ ((z2 : ℚ) - (z1 : ℚ)) * pow2 (s + j) := mul_le_mul_of_nonneg_right h3 (le_of_lt hpj)
  have h5 := (abs_le.mp herr).2
  have h6 : h - raw / r ≤ pow2 s / 2 := by linarith
  have h7 : h * r - raw = (h - raw / r) * r := by
    rw [sub_mul, div_mul_cancel₀ raw (ne_of_gt hr0)]
  have h8 : h * r - raw ≤ pow2 s / 2 * r := by
    rw [h7]
    exact mul_le_mul_of_nonneg_right h6 (le_of_lt hr0)
  have h9 : pow2 s / 2 * r < pow2 s * pow2 j := by
    have : pow2 s / 2 * r < pow2 s / 2 * (2 * pow2 j) :=
      mul_lt_mul_of_pos_left hr2 (by positivity)
    calc pow2 s / 2 * r < pow2 s / 2 * (2 * pow2 j) := this
      _ = pow2 s * pow2 j := by ring
  rw [pow2_add] at hgap
  linarith

/-! ## The sanitiser -/

theorem JSNum.le_def (x y : JSNum) : (x ≤ y) = JSNum.le x y := rfl

/-- The clamp `Math.max(lo, x || lo)` in closed form. -/
theorem clamp_eq (lo : ℚ) (hlo : 0 ≤ lo) (x : JSNum) :
    JSNum.max (.fin lo) (JSNum.orElse x (.fin lo)) =
      match x with
      | .fin q => .fin (if lo ≤ q then q else lo)
      | .posInf => .posInf
      | _ => .fin lo := by
  cases x with
  | fin q =>
    by_cases hq : q = 0
    · subst hq
      by_cases h : lo ≤ 0 <;> simp [JSNum.orElse, JSNum.truthy, JSNum.max, h]
      exact le_antisymm h hlo
    · simp [JSNum.orElse, JSNum.truthy, JSNum.max, hq]
  | nan => simp [JSNum.orElse, JSNum.truthy, JSNum.max]
  | posInf => simp [JSNum.orElse, JSNum.truthy, JSNum.max]
  | negInf => simp [JSNum.orElse, JSNum.truthy, JSNum.max]

/-- The people clamp `Math.max(1, Math.floor(x || 1))` in closed form. -/
theorem safePeople_eq (people : JSValue) :
    safePeople people =
      match toNumber people with
      | .fin q => .fin ((if (1 : ℤ) ≤ ⌊q⌋ then ⌊q⌋ else 1 : ℤ) : ℚ)
      | .posInf => .posInf
      | _ => .fin 1 := by
  unfold safePeople
  cases toNumber people with
  | fin q =>
    by_cases hq : q = 0
    · subst hq
      simp [JSNum.orElse, JSNum.truthy, JSNum.max, JSNum.floor]
    · by_cases h : (1 : ℤ) ≤ ⌊q⌋
      · have h' : (1 : ℚ) ≤ (⌊q⌋ : ℚ) := by exact_mod_cast h
        simp [JSNum.orElse, JSNum.truthy, JSNum.max, JSNum.floor, hq, h, h']
      · have h' : ¬ (1 : ℚ) ≤ (⌊q⌋ : ℚ) := by
          intro h1; exact h (by exact_mod_cast h1)
        simp [JSNum.orElse, JSNum.truthy, JSNum.max, JSNum.floor, hq, h, h']
  | nan => simp [JSNum.orElse, JSNum.truthy, JSNum.max, JSNum.floor]
  | posInf => simp [JSNum.orElse, JSNum.truthy, JSNum.max, JSNum.floor]
  | negInf => simp [JSNum.orElse, JSNum.truthy, JSNum.max, JSNum.floor]

/-- A clamped value is `+Infinity` exactly when the raw number is, and otherwise a finite
value at or above the lower bound. -/
theorem clamp_cases (lo : ℚ) (hlo : 0 ≤ lo) (x : JSNum) :
    (x = .posInf ∧ JSNum.max (.fin lo) (JSNum.orElse x (.fin lo)) = .posInf) ∨
    (x ≠ .posInf ∧ ∃ r : ℚ, lo ≤ r ∧ JSNum.max (.fin lo) (JSNum.orElse x (.fin lo)) = .fin r) := by
  rw [clamp_eq lo hlo]
  cases x with
  | fin q =>
    right
    refine ⟨by simp, _, ?_, rfl⟩
    split_ifs with h
    · exact h
    · exact le_refl _
  | nan => right; exact ⟨by simp, lo, le_refl _, rfl⟩
  | posInf => left; exact ⟨rfl, rfl⟩
  | negInf => right; exact ⟨by simp, lo, le_refl _, rfl⟩

/-- The sanitised people count is `+Infinity` exactly when the raw number is, and otherwise
an integer at or above one. -/
theorem safePeople_cases (people : JSValue) :
    (toNumber people = .posInf ∧ safePeople people = .posInf) ∨
    (toNumber people ≠ .posInf ∧ ∃ n : ℤ, 1 ≤ n ∧ safePeople people = .fin n) := by
  rw [safePeople_eq]
  cases toNumber people with
  | fin q =>
    right
    refine ⟨by simp, _, ?_, rfl⟩
    split_ifs with h
    · exact h
    · exact le_refl _
  | nan => right; exact ⟨by simp, 1, le_refl _, by simp⟩
  | posInf => left; exact ⟨rfl, rfl⟩
  | negInf => right; exact ⟨by simp, 1, le_refl _, by simp⟩

/-- The literal `0.01` as a binary64 value. -/
theorem roundDouble_hundredth :
    roundDouble (1 / 100) = .fin (5764607523034235 / 576460752303423488) := by
  decide!

/-- The sanitised mileage is `+Infinity` exactly when the raw number is, and otherwise a
finite value at or above the literal `0.01`. -/
theorem safeMileage_cases (mileage : JSValue) :
    (toNumber mileage = .posInf ∧ safeMileage mileage = .posInf) ∨
    (toNumber mileage ≠ .posInf ∧ ∃ r : ℚ, 5764607523034235 / 576460752303423488 ≤ r ∧
      safeMileage mileage = .fin r) := by
  unfold safeMileage
  rw [roundDouble_hundredth]
  exact clamp_cases _ (by norm_num) _

/-- The sanitised distance is `+Infinity` or a non-negative finite value. -/
theorem safeDistance_cases (distance : JSValue) :
    (toNumber distance = .posInf ∧ safeDistance distance = .posInf) ∨
    (toNumber distance ≠ .posInf ∧ ∃ r : ℚ, 0 ≤ r ∧ safeDistance distance = .fin r) :=
  clamp_cases 0 (le_refl _) _

/-- The sanitised fuel price is `+Infinity` or a non-negative finite value. -/
theorem safeFuelPrice_cases (fuelPrice : JSValue) :
    (toNumber fuelPrice = .posInf ∧ safeFuelPrice fuelPrice = .posInf) ∨
    (toNumber fuelPrice ≠ .posInf ∧ ∃ r : ℚ, 0 ≤ r ∧ safeFuelPrice fuelPrice = .fin r) :=
  clamp_cases 0 (le_refl _) _

/-- A value is not negative: NaN excluded, it is `+Infinity` or a non-negative number. -/
theorem nonneg_cases (x : JSNum) (h : x = .posInf ∨ ∃ r : ℚ, 0 ≤ r ∧ x = .fin r) :
    JSNum.fin 0 ≤ x := by
  rcases h with h | ⟨r, hr, h⟩
  · rw [h]; trivial
  · rw [h]; exact hr

/-- The quotient of a non-negative number by a positive number. -/
theorem div_fin_nonneg (d m : ℚ) (hd : 0 ≤ d) (hm : 0 < m) :
    JSNum.div (.fin d) (.fin m) = roundDouble (d / m) ∧
    (roundDouble (d / m) = .posInf ∨ ∃ x : ℚ, 0 ≤ x ∧ roundDouble (d / m) = .fin x) := by
  refine ⟨by simp [JSNum.div, ne_of_gt hm], ?_⟩
  exact roundDouble_nonneg _ (div_nonneg hd (le_of_lt hm))

/-- The total cost is NaN, `+Infinity` or a non-negative number. -/
theorem totalCost_cases (distance mileage fuelPrice : JSValue) :
    totalCost distance mileage fuelPrice = .nan ∨
    totalCost distance mileage fuelPrice = .posInf ∨
    ∃ t : ℚ, 0 ≤ t ∧ totalCost distance mileage fuelPrice = .fin t := by
  unfold totalCost
  rcases safeDistance_cases distance with ⟨_, hd⟩ | ⟨_, d, hd0, hd⟩ <;>
  rcases safeMileage_cases mileage with ⟨_, hm⟩ | ⟨_, m, hm0, hm⟩ <;>
  rcases safeFuelPrice_cases fuelPrice with ⟨_, hp⟩ | ⟨_, p, hp0, hp⟩ <;>
  rw [hd, hm, hp]
  · left; rfl
  · left; rfl
  · have hm1 : (0 : ℚ) ≤ m := le_trans (by norm_num) hm0
    right; left; simp [JSNum.div, JSNum.mul, hm1]
  · have hm1 : (0 : ℚ) ≤ m := le_trans (by norm_num) hm0
    by_cases h0 : p = 0
    · left; simp [JSNum.div, JSNum.mul, hm1, h0]
    · have hp1 : 0 < p := lt_of_le_of_ne hp0 (Ne.symm h0)
      right; left; simp [JSNum.div, JSNum.mul, hm1, h0, hp1]
  · left; simp [JSNum.div, JSNum.mul]
  · right; right
    refine ⟨0, le_refl _, ?_⟩
    simp [JSNum.div, JSNum.mul, roundDouble_zero]
  · have hm1 : (0 : ℚ) < m := lt_of_lt_of_le (by norm_num) hm0
    obtain ⟨hq, hcase⟩ := div_fin_nonneg d m hd0 hm1
    rw [hq]
    rcases hcase with h | ⟨x, hx0, h⟩
    · rw [h]; right; left; rfl
    · rw [h]
      by_cases h0 : x = 0
      · left; simp [JSNum.mul, h0]
      · have hx1 : 0 < x := lt_of_le_of_ne hx0 (Ne.symm h0)
        right; left; simp [JSNum.mul, h0, hx1]
  · have hm1 : (0 : ℚ) < m := lt_of_lt_of_le (by norm_num) hm0
    obtain ⟨hq, hcase⟩ := div_fin_nonneg d m hd0 hm1
    rw [hq]
    rcases hcase with h | ⟨x, hx0, h⟩
    · rw [h]
      by_cases h0 : p = 0
      · left; simp [JSNum.mul, h0]
      · have hp1 : 0 < p := lt_of_le_of_ne hp0 (Ne.symm h0)
        right; left; simp [JSNum.mul, h0, hp1]
    · rw [h]
      rcases roundDouble_nonneg (x * p) (mul_nonneg hx0 hp0) with h2 | ⟨t, ht0, h2⟩
      · right; left; simp [JSNum.mul, h2]
      · right; right; exact ⟨t, ht0, by simp [JSNum.mul, h2]⟩

/-! ## Total cost -/

/-- C1, as stated, fails twice.  On distance 7, mileage 10 and fuel price 90 the sanitised
values are in range but the total is the binary64 value 62.99999999999999, not the exact
`(7 / 10) * 90 = 63`.  On distance 0 and fuel price `"Infinity"` the sanitised values are 0,
40 and `+Infinity`, all in range, and the total `0 * Infinity` is NaN, which is not `≥ 0`. -/
theorem totalCost_not_exact :
    ((computed (.num (.fin 7)) (.num (.fin 10)) (.num (.fin 3)) (.num (.fin 90))
        true (.fin 1)).safeDistance = .fin 7 ∧
      (computed (.num (.fin 7)) (.num (.fin 10)) (.num (.fin 3)) (.num (.fin 90))
        true (.fin 1)).safeMileage = .fin 10 ∧
      (computed (.num (.fin 7)) (.num (.fin 10)) (.num (.fin 3)) (.num (.fin 90))
        true (.fin 1)).safeFuelPrice = .fin 90 ∧
      (computed (.num (.fin 7)) (.num (.fin 10)) (.num (.fin 3)) (.num (.fin 90))
        true (.fin 1)).totalCost = roundDouble 62.99999999999999 ∧
      (computed (.num (.fin 7)) (.num (.fin 10)) (.num (.fin 3)) (.num (.fin 90))
        true (.fin 1)).totalCost ≠ .fin (7 / 10 * 90)) ∧
    ((computed (.num (.fin 0)) (.num (.fin 40)) (.num (.fin 3)) (.str "Infinity")
        true (.fin 1)).safeDistance = .fin 0 ∧
      (computed (.num (.fin 0)) (.num (.fin 40)) (.num (.fin 3)) (.str "Infinity")
        true (.fin 1)).safeMileage = .fin 40 ∧
      (computed (.num (.fin 0)) (.num (.fin 40)) (.num (.fin 3)) (.str "Infinity")
        true (.fin 1)).safeFuelPrice = .posInf ∧
      (computed (.num (.fin 0)) (.num (.fin 40)) (.num (.fin 3)) (.str "Infinity")
        true (.fin 1)).totalCost = .nan ∧
      ¬ JSNum.fin 0 ≤ (computed (.num (.fin 0)) (.num (.fin 40)) (.num (.fin 3))
        (.str "Infinity") true (.fin 1)).totalCost) := by
  refine ⟨by decide!, by decide!, by decide!, by decide!, by decide!, ?_⟩
  have h : (computed (.num (.fin 0)) (.num (.fin 40)) (.num (.fin 3)) (.str "Infinity")
      true (.fin 1)).totalCost = .nan := by decide!
  rw [h]
  intro h1
  exact h1

/-- C1, amended: for every input the total cost is `(safeDistance / safeMileage) *
safeFuelPrice` in binary64 arithmetic and is never negative: it is NaN or `≥ 0`.  When the
three sanitised values are the numbers `d`, `m`, `p`, the quotient is `d / m` rounded to
binary64, the total is that quotient times `p` rounded to binary64, the total is NaN exactly
when the quotient overflows to `+Infinity` and `p = 0`, and it is the exact `(d / m) * p`
whenever `d / m` and `(d / m) * p` are binary64 values. -/
theorem computed_totalCost_rounded (distance mileage people fuelPrice : JSValue)
    (includeOwner : Bool) (roundTo : JSNum) (c : Computed)
    (hc : c = computed distance mileage people fuelPrice includeOwner roundTo) :
    c.totalCost = JSNum.mul (JSNum.div c.safeDistance c.safeMileage) c.safeFuelPrice ∧
    (c.totalCost = .nan ∨ JSNum.fin 0 ≤ c.totalCost) ∧
    (∀ d m p : ℚ, c.safeDistance = .fin d → c.safeMileage = .fin m →
      c.safeFuelPrice = .fin p →
      JSNum.div c.safeDistance c.safeMileage = roundDouble (d / m) ∧
      (∀ x : ℚ, roundDouble (d / m) = .fin x → c.totalCost = roundDouble (x * p)) ∧
      (c.totalCost = .nan ↔ roundDouble (d / m) = .posInf ∧ p = 0) ∧
      (IsDouble (d / m) → IsDouble (d / m * p) → c.totalCost = .fin (d / m * p))) := by
  subst hc
  refine ⟨rfl, ?_, ?_⟩
  · rcases totalCost_cases distance mileage fuelPrice with h | h | ⟨t, ht, h⟩
    · left; exact h
    · right; exact nonneg_cases _ (Or.inl h)
    · right; exact nonneg_cases _ (Or.inr ⟨t, ht, h⟩)
  · intro d m p hd hm hp
    simp only [computed] at hd hm hp ⊢
    have hm0 : 0 < m := by
      rcases safeMileage_cases mileage with ⟨_, h⟩ | ⟨_, r, hr, h⟩
      · rw [h] at hm; cases hm
      · rw [h] at hm; cases hm
        exact lt_of_lt_of_le (by norm_num) hr
    have hd0 : 0 ≤ d := by
      rcases safeDistance_cases distance with ⟨_, h⟩ | ⟨_, r, hr, h⟩
      · rw [h] at hd; cases hd
      · rw [h] at hd; cases hd
        exact hr
    have hp0 : 0 ≤ p := by
      rcases safeFuelPrice_cases fuelPrice with ⟨_, h⟩ | ⟨_, r, hr, h⟩
      · rw [h] at hp; cases hp
      · rw [h] at hp; cases hp
        exact hr
    obtain ⟨hq, hcase⟩ := div_fin_nonneg d m hd0 hm0
    have ht : totalCost distance mileage fuelPrice
        = JSNum.mul (roundDouble (d / m)) (.fin p) := by
      unfold totalCost
      rw [hd, hm, hp, hq]
    refine ⟨by rw [hd, hm, hq], ?_, ?_, ?_⟩
    · intro x hx
      rw [ht, hx]
      rfl
    · rw [ht]
      rcases hcase with h | ⟨x, hx0, h⟩
      · rw [h]
        by_cases h0 : p = 0
        · simp [JSNum.mul, h0]
        · have hp1 : 0 < p := lt_of_le_of_ne hp0 (Ne.symm h0)
          simp [JSNum.mul, h0, hp1]
      · rw [h]
        have h1 : JSNum.mul (.fin x) (.fin p) ≠ .nan := roundDouble_ne_nan _
        simp [h1]
    · intro h1 h2
      rw [ht, roundDouble_of_isDouble _ h1]
      exact roundDouble_of_isDouble _ h2

/-- C1 amended, at distance 120, mileage 40 and fuel price 50: the quotient 3 and the
product 150 are binary64 values, so the total is exactly 150. -/
theorem computed_totalCost_rounded_witness :
    (computed (.num (.fin 120)) (.num (.fin 40)) (.num (.fin 3)) (.num (.fin 50))
        true (.fin 1)).totalCost = .fin (120 / 40 * 50) :=
  (computed_totalCost_rounded (.num (.fin 120)) (.num (.fin 40)) (.num (.fin 3))
    (.num (.fin 50)) true (.fin 1) _ rfl).2.2 120 40 50 (by decide!) (by decide!) (by decide!)
    |>.2.2.2 ⟨3, 0, by norm_num, by norm_num, by norm_num, by norm_num [pow2]⟩
      ⟨150, 0, by norm_num, by norm_num, by norm_num, by norm_num [pow2]⟩

/-! ## The sanitiser invariants -/

/-- C2, as stated, fails: the raw people value `"Infinity"`, and likewise `"1e400"`, which
overflows binary64, is coerced to `+Infinity`, which `Math.floor` and `Math.max` keep, so
the sanitised people count is not an integer. -/
theorem safePeople_infinity_not_integer :
    ((computed (.num (.fin 120)) (.num (.fin 40)) (.str "Infinity") (.num (.fin 107))
        true (.fin 1)).safePeople = .posInf ∧
      ¬ (computed (.num (.fin 120)) (.num (.fin 40)) (.str "Infinity") (.num (.fin 107))
        true (.fin 1)).safePeople.IsInteger) ∧
    ((computed (.num (.fin 120)) (.num (.fin 40)) (.str "1e400") (.num (.fin 107))
        true (.fin 1)).safePeople = .posInf ∧
      ¬ (computed (.num (.fin 120)) (.num (.fin 40)) (.str "1e400") (.num (.fin 107))
        true (.fin 1)).safePeople.IsInteger) := by
  have h1 : (computed (.num (.fin 120)) (.num (.fin 40)) (.str "Infinity")
      (.num (.fin 107)) true (.fin 1)).safePeople = .posInf := by decide!
  have h2 : (computed (.num (.fin 120)) (.num (.fin 40)) (.str "1e400")
      (.num (.fin 107)) true (.fin 1)).safePeople = .posInf := by decide!
  refine ⟨⟨h1, ?_⟩, ⟨h2, ?_⟩⟩
  · rw [h1]
    rintro ⟨n, hn⟩
    cases hn
  · rw [h2]
    rintro ⟨n, hn⟩
    cases hn

/-- C2, amended: for all raw values the sanitised results satisfy `safeDistance ≥ 0`,
`safeMileage ≥ 0.01`, `safePeople ≥ 1` and `safeFuelPrice ≥ 0`; `safePeople` is an integer
unless the people value coerces to `+Infinity` (then it is `+Infinity`); a value that coerces
to NaN gets its fallback (0, 0.01, 1, 0); a number already in range is kept (people: its
floor); a number below the range is clamped to the lower bound.  The bound and the fallback
of the mileage are the binary64 value of the literal `0.01`. -/
theorem sanitizer_invariants (distance mileage people fuelPrice : JSValue)
    (includeOwner : Bool) (roundTo : JSNum) (c : Computed)
    (hc : c = computed distance mileage people fuelPrice includeOwner roundTo) :
    (JSNum.fin 0 ≤ c.safeDistance ∧ JSNum.fin (1 / 100) ≤ c.safeMileage ∧
      roundDouble (1 / 100) ≤ c.safeMileage ∧
      JSNum.fin 1 ≤ c.safePeople ∧ JSNum.fin 0 ≤ c.safeFuelPrice) ∧
    (toNumber people ≠ .posInf → c.safePeople.IsInteger) ∧
    (toNumber people = .posInf → c.safePeople = .posInf) ∧
    ((toNumber distance = .nan → c.safeDistance = .fin 0) ∧
      (toNumber mileage = .nan → c.safeMileage = roundDouble (1 / 100)) ∧
      (toNumber people = .nan → c.safePeople = .fin 1) ∧
      (toNumber fuelPrice = .nan → c.safeFuelPrice = .fin 0)) ∧
    ((∀ q : ℚ, toNumber distance = .fin q → 0 ≤ q → c.safeDistance = .fin q) ∧
      (∀ q : ℚ, toNumber mileage = .fin q → roundDouble (1 / 100) ≤ JSNum.fin q →
        c.safeMileage = .fin q) ∧
      (∀ q : ℚ, toNumber people = .fin q → 1 ≤ q → c.safePeople = .fin (⌊q⌋ : ℤ)) ∧
      (∀ q : ℚ, toNumber fuelPrice = .fin q → 0 ≤ q → c.safeFuelPrice = .fin q)) ∧
    ((∀ q : ℚ, toNumber distance = .fin q → q < 0 → c.safeDistance = .fin 0) ∧
      (∀ q : ℚ, toNumber mileage = .fin q → ¬ roundDouble (1 / 100) ≤ JSNum.fin q →
        c.safeMileage = roundDouble (1 / 100)) ∧
      (∀ q : ℚ, toNumber people = .fin q → q < 1 → c.safePeople = .fin 1) ∧
      (∀ q : ℚ, toNumber fuelPrice = .fin q → q < 0 → c.safeFuelPrice = .fin 0)) := by
  subst hc
  have h100 : (0 : ℚ) ≤ 5764607523034235 / 576460752303423488 := by norm_num
  have hD := clamp_eq 0 (le_refl _) (toNumber distance)
  have hM := clamp_eq (5764607523034235 / 576460752303423488) h100 (toNumber mileage)
  have hF := clamp_eq 0 (le_refl _) (toNumber fuelPrice)
  have hP := safePeople_eq people
  simp only [computed, safeDistance, safeMileage, safeFuelPrice, roundDouble_hundredth]
  refine ⟨⟨?_, ?_, ?_, ?_, ?_⟩, ?_, ?_, ⟨?_, ?_, ?_, ?_⟩, ⟨?_, ?_, ?_, ?_⟩, ⟨?_, ?_, ?_, ?_⟩⟩
  · rcases clamp_cases 0 (le_refl _) (toNumber distance) with ⟨_, h⟩ | ⟨_, r, hr, h⟩
    · rw [h]; trivial
    · rw [h]; exact hr
  · rcases clamp_cases _ h100 (toNumber mileage) with ⟨_, h⟩ | ⟨_, r, hr, h⟩
    · rw [h]; trivial
    · rw [h]; exact le_trans (by norm_num) hr
  · rcases clamp_cases _ h100 (toNumber mileage) with ⟨_, h⟩ | ⟨_, r, hr, h⟩
    · rw [h]; trivial
    · rw [h]; exact hr
  · rcases safePeople_cases people with ⟨_, h⟩ | ⟨_, n, hn, h⟩
    · rw [h]; trivial
    · rw [h]; show (1 : ℚ) ≤ (n : ℚ); exact_mod_cast hn
  · rcases clamp_cases 0 (le_refl _) (toNumber fuelPrice) with ⟨_, h⟩ | ⟨_, r, hr, h⟩
    · rw [h]; trivial
    · rw [h]; exact hr
  · intro hne
    rcases safePeople_cases people with ⟨h, _⟩ | ⟨_, n, _, h⟩
    · exact absurd h hne
    · exact ⟨n, h⟩
  · intro hinf
    rw [hP, hinf]
  · intro h; rw [hD, h]
  · intro h; rw [hM, h]
  · intro h; rw [hP, h]
  · intro h; rw [hF, h]
  · intro q h hq; rw [hD, h]; simp [hq]
  · intro q h hq
    have hq' : (5764607523034235 / 576460752303423488 : ℚ) ≤ q := hq
    rw [hM, h]; simp only [hq', if_true]
  · intro q h hq
    have h1 : (1 : ℤ) ≤ ⌊q⌋ := Int.le_floor.mpr (by exact_mod_cast hq)
    rw [hP, h]; simp [h1]
  · intro q h hq; rw [hF, h]; simp [hq]
  · intro q h hq; rw [hD, h]; simp [not_le.mpr hq]
  · intro q h hq
    have hq' : ¬ (5764607523034235 / 576460752303423488 : ℚ) ≤ q := hq
    rw [hM, h]; simp only [hq', if_false]
  · intro q h hq
    have h1 : ¬ (1 : ℤ) ≤ ⌊q⌋ := by
      intro h2
      have := Int.le_floor.mp h2
      exact absurd hq (not_lt.mpr (by exact_mod_cast this))
    rw [hP, h]; simp [h1]
  · intro q h hq; rw [hF, h]; simp [not_le.mpr hq]

/-- C2 amended, at the raw values `"12.5"`, `"abc"`, `3.7` and `-4`: the numeric string is
kept, the non-numeric one falls back to 0.01, the people count is floored to an integer,
and the negative price is clamped to 0. -/
theorem sanitizer_invariants_witness :
    (computed (.str "12.5") (.str "abc") (.num (roundDouble 3.7)) (.num (.fin (-4)))
        true (.fin 1)).safeDistance = .fin (125 / 10) ∧
      (computed (.str "12.5") (.str "abc") (.num (roundDouble 3.7)) (.num (.fin (-4)))
        true (.fin 1)).safeMileage = roundDouble (1 / 100) ∧
      (computed (.str "12.5") (.str "abc") (.num (roundDouble 3.7)) (.num (.fin (-4)))
        true (.fin 1)).safePeople.IsInteger ∧
      (computed (.str "12.5") (.str "abc") (.num (roundDouble 3.7)) (.num (.fin (-4)))
        true (.fin 1)).safeFuelPrice = .fin 0 :=
  have h := sanitizer_invariants (.str "12.5") (.str "abc") (.num (roundDouble 3.7))
    (.num (.fin (-4))) true (.fin 1) _ rfl
  ⟨h.2.2.2.2.1.1 (125 / 10) (by decide!) (by norm_num),
   h.2.2.2.1.2.1 (by decide!),
   h.2.1 (by decide!),
   h.2.2.2.2.2.2.2.2 (-4) (by decide!) (by norm_num)⟩

/-! ## Paying people -/

/-- C3: the paying head count is the sanitised people count when the owner is included and
`Math.max(1, safePeople - 1)` when not; it is at least one, never zero, and excluding the
owner from a party of one still leaves one payer. -/
theorem payablePeople_spec (distance mileage people fuelPrice : JSValue)
    (includeOwner : Bool) (roundTo : JSNum) (c : Computed)
    (hc : c = computed distance mileage people fuelPrice includeOwner roundTo) :
    JSNum.fin 1 ≤ c.safePeople ∧
    (includeOwner = true → c.payablePeople = c.safePeople) ∧
    (includeOwner = false →
      c.payablePeople = JSNum.max (.fin 1) (JSNum.sub c.safePeople (.fin 1))) ∧
    JSNum.fin 1 ≤ c.payablePeople ∧
    c.payablePeople ≠ .fin 0 ∧
    (includeOwner = false → c.safePeople = .fin 1 → c.payablePeople = .fin 1) := by
  subst hc
  simp only [computed, payablePeople]
  rcases safePeople_cases people with ⟨_, h⟩ | ⟨_, n, hn, h⟩
  · rw [h]
    cases includeOwner <;> simp [JSNum.sub, JSNum.max, JSNum.le_def, JSNum.le]
  · rw [h]
    have hq : (1 : ℚ) ≤ (n : ℚ) := by exact_mod_cast hn
    cases includeOwner
    · have hsub : JSNum.sub (.fin (n : ℚ)) (.fin 1) = roundDouble ((n : ℚ) - 1) := rfl
      have hone : (n : ℚ) = 1 →
          JSNum.max (.fin 1) (JSNum.sub (.fin (n : ℚ)) (.fin 1)) = .fin 1 := by
        intro h1
        rw [hsub, h1]
        simp [roundDouble_zero, JSNum.max]
      have hcases : JSNum.max (.fin 1) (JSNum.sub (.fin (n : ℚ)) (.fin 1)) = .posInf ∨
          ∃ x : ℚ, 1 ≤ x ∧ JSNum.max (.fin 1) (JSNum.sub (.fin (n : ℚ)) (.fin 1)) = .fin x := by
        rw [hsub]
        rcases roundDouble_nonneg ((n : ℚ) - 1) (by linarith) with h2 | ⟨r, _, h2⟩
        · left; rw [h2]; rfl
        · right
          rw [h2]
          by_cases h4 : (1 : ℚ) ≤ r
          · exact ⟨r, h4, by simp [JSNum.max, h4]⟩
          · exact ⟨1, le_refl _, by simp [JSNum.max, h4]⟩
      generalize JSNum.max (.fin 1) (JSNum.sub (.fin (n : ℚ)) (.fin 1)) = P at hone hcases
      refine ⟨hq, fun h1 => absurd h1 (by simp), fun _ => by simp, ?_, ?_, ?_⟩
      · simp only [Bool.false_eq_true, if_false]
        rcases hcases with h2 | ⟨x, hx, h2⟩
        · rw [h2]; trivial
        · rw [h2]; exact hx
      · simp only [Bool.false_eq_true, if_false]
        rcases hcases with h2 | ⟨x, hx, h2⟩
        · rw [h2]; simp
        · rw [h2]
          intro h3
          injection h3 with h4
          rw [h4] at hx
          norm_num at hx
      · intro _ h6
        simp only [Bool.false_eq_true, if_false]
        injection h6 with h7
        exact hone h7
    · have h0 : (n : ℚ) ≠ 0 := by linarith
      simp [JSNum.le_def, JSNum.le, hq]
      exact_mod_cast h0

/-- C3 at a party of one with the owner excluded: one person still pays. -/
theorem payablePeople_spec_witness :
    (computed (.num (.fin 120)) (.num (.fin 40)) (.num (.fin 1)) (.num (.fin 107))
        false (.fin 1)).payablePeople = .fin 1 :=
  (payablePeople_spec (.num (.fin 120)) (.num (.fin 40)) (.num (.fin 1))
    (.num (.fin 107)) false (.fin 1) _ rfl).2.2.2.2.2 rfl (by decide!)

/-! ## The per-person share -/

/-- The paying head count is `+Infinity` or a number at or above one. -/
theorem payablePeople_cases (people : JSValue) (includeOwner : Bool) :
    payablePeople people includeOwner = .posInf ∨
    ∃ x : ℚ, 1 ≤ x ∧ payablePeople people includeOwner = .fin x := by
  unfold payablePeople
  rcases safePeople_cases people with ⟨_, h⟩ | ⟨_, n, hn, h⟩
  · left
    rw [h]
    cases includeOwner <;> simp [JSNum.sub, JSNum.max]
  · rw [h]
    have hq : (1 : ℚ) ≤ (n : ℚ) := by exact_mod_cast hn
    cases includeOwner
    · have hsub : JSNum.sub (.fin (n : ℚ)) (.fin 1) = roundDouble ((n : ℚ) - 1) := rfl
      simp only [Bool.false_eq_true, if_false, hsub]
      rcases roundDouble_nonneg ((n : ℚ) - 1) (by linarith) with h2 | ⟨r, _, h2⟩
      · left; rw [h2]; rfl
      · right
        rw [h2]
        by_cases h4 : (1 : ℚ) ≤ r
        · exact ⟨r, h4, by simp [JSNum.max, h4]⟩
        · exact ⟨1, le_refl _, by simp [JSNum.max, h4]⟩
    · right; exact ⟨n, hq, by simp⟩

/-- A finite product comes from finite factors and is their rounded exact product. -/
theorem mul_eq_fin (a b : JSNum) (t : ℚ) (h : JSNum.mul a b = .fin t) :
    ∃ x y : ℚ, a = .fin x ∧ b = .fin y ∧ roundDouble (x * y) = .fin t := by
  cases a <;> cases b <;> simp only [JSNum.mul] at h
  case fin.fin x y => exact ⟨x, y, rfl, rfl, h⟩
  all_goals first
    | cases h
    | (split_ifs at h)

/-- A finite total cost is a binary64 value. -/
theorem totalCost_isDouble (distance mileage fuelPrice : JSValue) (t : ℚ)
    (h : totalCost distance mileage fuelPrice = .fin t) : IsDouble t := by
  obtain ⟨x, y, _, _, hxy⟩ := mul_eq_fin _ _ t h
  exact isDouble_of_roundDouble _ _ hxy

/-- A finite total cost is not negative. -/
theorem totalCost_fin_nonneg (distance mileage fuelPrice : JSValue) (t : ℚ)
    (h : totalCost distance mileage fuelPrice = .fin t) : 0 ≤ t := by
  rcases totalCost_cases distance mileage fuelPrice with h1 | h1 | ⟨u, hu, h1⟩
  · rw [h1] at h; cases h
  · rw [h1] at h; cases h
  · rw [h1] at h; cases h; exact hu

/-- A finite total cost gives a finite, non-negative raw share, itself a binary64 value,
and zero when the total is zero. -/
theorem rawPerPerson_finite (distance mileage people fuelPrice : JSValue)
    (includeOwner : Bool) (t : ℚ) (ht : totalCost distance mileage fuelPrice = .fin t) :
    ∃ raw : ℚ, rawPerPerson distance mileage people fuelPrice includeOwner = .fin raw ∧
      IsDouble raw ∧ 0 ≤ raw ∧ (t = 0 → raw = 0) := by
  have htd := totalCost_isDouble distance mileage fuelPrice t ht
  have ht0 := totalCost_fin_nonneg distance mileage fuelPrice t ht
  unfold rawPerPerson
  rw [ht]
  rcases payablePeople_cases people includeOwner with h | ⟨n, hn, h⟩
  · rw [h]
    exact ⟨0, by simp [JSNum.div], isDouble_zero, le_refl _, fun _ => rfl⟩
  · rw [h]
    have hn0 : (0 : ℚ) < n := by linarith
    have hne : n ≠ 0 := ne_of_gt hn0
    have hdiv : JSNum.div (.fin t) (.fin n) = roundDouble (t / n) := by
      simp [JSNum.div, hne]
    have hle : |t / n| ≤ |t| := by
      rw [abs_div, abs_of_pos hn0]
      exact div_le_self (abs_nonneg t) hn
    obtain ⟨raw, hraw⟩ := roundDouble_finite_of_le (t / n) t htd hle
    have hraw0 : 0 ≤ raw := by
      rcases roundDouble_nonneg (t / n) (div_nonneg ht0 (le_of_lt hn0)) with h1 | ⟨u, hu, h1⟩
      · rw [h1] at hraw; cases hraw
      · rw [h1] at hraw; cases hraw; exact hu
    refine ⟨raw, by rw [hdiv, hraw], isDouble_of_roundDouble _ _ hraw, hraw0, ?_⟩
    intro h0
    rw [h0, zero_div, roundDouble_zero] at hraw
    cases hraw
    rfl

/-- C4, as stated, fails: with the fuel price `"Infinity"` the share is `+Infinity`, and
with the finite inputs distance 1e308, mileage 0.01, fuel price 10 the quotient overflows
and the share is `+Infinity` as well; neither is an integer multiple of the unit. -/
theorem eachPersonPays_infinity_not_multiple :
    ((computed (.num (.fin 120)) (.num (.fin 40)) (.num (.fin 3)) (.str "Infinity")
        true (.fin 1)).eachPersonPays = .posInf ∧
      ¬ ∃ k : ℤ, (computed (.num (.fin 120)) (.num (.fin 40)) (.num (.fin 3)) (.str "Infinity")
        true (.fin 1)).eachPersonPays = .fin ((k : ℚ) * 1)) ∧
    ((computed (.str "1e308") (.str "0.01") (.num (.fin 2)) (.num (.fin 10))
        true (.fin 1)).eachPersonPays = .posInf ∧
      ¬ ∃ k : ℤ, (computed (.str "1e308") (.str "0.01") (.num (.fin 2)) (.num (.fin 10))
        true (.fin 1)).eachPersonPays = .fin ((k : ℚ) * 1)) := by
  have h1 : (computed (.num (.fin 120)) (.num (.fin 40)) (.num (.fin 3)) (.str "Infinity")
      true (.fin 1)).eachPersonPays = .posInf := by decide!
  have h2 : (computed (.str "1e308") (.str "0.01") (.num (.fin 2)) (.num (.fin 10))
      true (.fin 1)).eachPersonPays = .posInf := by decide!
  refine ⟨⟨h1, ?_⟩, ⟨h2, ?_⟩⟩
  · rw [h1]
    rintro ⟨k, hk⟩
    cases hk
  · rw [h2]
    rintro ⟨k, hk⟩
    cases hk

/-- The share of a finite raw share below `2 ^ 51`: the binary64 quotient by the unit rounds
to the same integer as the exact quotient, and the product with the unit is exact. -/
theorem round_quotient_exact (raw r x : ℚ) (hr : r = 1 ∨ r = 5 ∨ r = 10)
    (hraw : IsDouble raw) (hraw0 : 0 ≤ raw) (hsmall : raw < 2 ^ 51)
    (hx : roundDouble (raw / r) = .fin x) :
    (⌊x + 1 / 2⌋ : ℤ) = ⌊raw / r + 1 / 2⌋ ∧
    roundDouble (((⌊raw / r + 1 / 2⌋ : ℤ) : ℚ) * r) = .fin (((⌊raw / r + 1 / 2⌋ : ℤ) : ℚ) * r) := by
  have hr0 : 0 < r := by rcases hr with h | h | h <;> rw [h] <;> norm_num
  have hr1 : 1 ≤ r := by rcases hr with h | h | h <;> rw [h] <;> norm_num
  have hr10 : r ≤ 10 := by rcases hr with h | h | h <;> rw [h] <;> norm_num
  obtain ⟨ri, hri⟩ : ∃ ri : ℤ, r = (ri : ℚ) := by
    rcases hr with h | h | h
    · exact ⟨1, by rw [h]; norm_num⟩
    · exact ⟨5, by rw [h]; norm_num⟩
    · exact ⟨10, by rw [h]; norm_num⟩
  have hri0 : 0 < ri := by
    have : (0 : ℚ) < (ri : ℚ) := by rw [← hri]; exact hr0
    exact_mod_cast this
  have hri10 : ri ≤ 10 := by
    have : (ri : ℚ) ≤ (10 : ℤ) := by rw [← hri]; exact_mod_cast hr10
    exact_mod_cast this
  obtain ⟨j, hj1, hj2⟩ : ∃ j : ℤ, pow2 j ≤ r ∧ r < 2 * pow2 j := by
    rcases hr with h | h | h
    · exact ⟨0, by rw [h, pow2_zero], by rw [h, pow2_zero]; norm_num⟩
    · have e : pow2 2 = 4 := by decide!
      refine ⟨2, ?_, ?_⟩ <;> rw [h, e] <;> norm_num
    · have e : pow2 3 = 8 := by decide!
      refine ⟨3, ?_, ?_⟩ <;> rw [h, e] <;> norm_num
  have hq0 : 0 ≤ raw / r := div_nonneg hraw0 (le_of_lt hr0)
  have hqle : raw / r ≤ raw := div_le_self hraw0 hr1
  have hK1 : ((⌊raw / r + 1 / 2⌋ : ℤ) : ℚ) ≤ raw / r + 1 / 2 := Int.floor_le _
  have hK2 : raw / r + 1 / 2 < ((⌊raw / r + 1 / 2⌋ : ℤ) : ℚ) + 1 := Int.lt_floor_add_one _
  have hK0 : 0 ≤ ⌊raw / r + 1 / 2⌋ := Int.floor_nonneg.mpr (by linarith)
  generalize hKdef : ⌊raw / r + 1 / 2⌋ = K at hK1 hK2 hK0 ⊢
  have hKq : (0 : ℚ) ≤ (K : ℚ) := by exact_mod_cast hK0
  have hKri : K * ri ≤ 2 ^ 51 + 5 := by
    have h3 : raw / r * r = raw := div_mul_cancel₀ raw (ne_of_gt hr0)
    have h4 : (K : ℚ) * r ≤ raw + r / 2 := by nlinarith
    have h5 : ((K * ri : ℤ) : ℚ) ≤ ((2 ^ 51 + 5 : ℤ) : ℚ) := by
      push_cast
      rw [← hri]
      linarith
    exact_mod_cast h5
  have hx0 : 0 ≤ x := by
    rcases roundDouble_nonneg (raw / r) hq0 with h1 | ⟨u, hu, h1⟩
    · rw [h1] at hx; cases hx
    · rw [h1] at hx; cases hx; exact hu
  constructor
  · rw [Int.floor_eq_iff]
    constructor
    · -- K - 1/2 ≤ x
      rcases eq_or_lt_of_le hK0 with h0 | h0
      · rw [← h0]; push_cast; linarith
      · have hb : IsDouble ((K : ℚ) - 1 / 2) := by
          refine ⟨2 * K - 1, -1, ?_, by norm_num, by norm_num, ?_⟩
          · rw [abs_of_nonneg (by omega)]
            have h2 : ((2 : ℤ) ^ 53) = 4 * 2 ^ 51 := by norm_num
            have h3 : K ≤ K * ri := le_mul_of_one_le_right hK0 (by omega)
            omega
          · have : pow2 (-1) = 1 / 2 := by decide!
            rw [this]; push_cast; ring
        have hb0 : (0 : ℚ) < (K : ℚ) - 1 / 2 := by
          have : (1 : ℚ) ≤ (K : ℚ) := by exact_mod_cast h0
          linarith
        have := le_roundDouble (raw / r) x _ hb hb0 (by linarith) hx
        linarith
    · -- x < K + 1/2
      have hv : IsDouble (((K : ℚ) + 1 / 2) * r) := by
        refine ⟨(2 * K + 1) * ri, -1, ?_, by norm_num, by norm_num, ?_⟩
        · rw [abs_of_nonneg (mul_nonneg (by omega) (le_of_lt hri0))]
          have h1 : (2 * K + 1) * ri = 2 * (K * ri) + ri := by ring
          have h2 : ((2 : ℤ) ^ 53) = 4 * 2 ^ 51 := by norm_num
          have h3 : (0 : ℤ) < 2 ^ 51 := by norm_num
          omega
        · have : pow2 (-1) = 1 / 2 := by decide!
          rw [this, hri]; push_cast; ring
      have := roundDouble_div_lt raw r ((K : ℚ) + 1 / 2) x j hj1 hj2 hraw hraw0 hv
        (by linarith) (by linarith) hx
      linarith
  · apply roundDouble_of_isDouble
    refine ⟨K * ri, 0, ?_, by norm_num, by norm_num, ?_⟩
    · rw [abs_of_nonneg (mul_nonneg hK0 (le_of_lt hri0))]
      have h2 : ((2 : ℤ) ^ 53) = 4 * 2 ^ 51 := by norm_num
      have h3 : (0 : ℤ) < 2 ^ 51 := by norm_num
      omega
    · rw [pow2_zero, hri]; push_cast; ring

/-- C4, amended: when the total cost is a finite number and the rounding unit `r` is 1, 5
or 10, the raw share `raw = totalCost / payablePeople` is a finite number `≥ 0`, and
`eachPersonPays` is `⌊x + 1/2⌋ * r` rounded to binary64 for the binary64 quotient `x` of
`raw` by `r`.  When moreover `raw < 2 ^ 51`, `eachPersonPays` is exactly `k * r` with
`k = ⌊raw / r + 1/2⌋`, within `r / 2` of `raw`, and a raw share exactly halfway between
two multiples goes to the larger one. -/
theorem eachPersonPays_rounding (distance mileage people fuelPrice : JSValue)
    (includeOwner : Bool) (r : ℚ) (c : Computed)
    (hc : c = computed distance mileage people fuelPrice includeOwner (.fin r))
    (t : ℚ) (ht : c.totalCost = .fin t)
    (hr : r = 1 ∨ r = 5 ∨ r = 10) :
    ∃ raw : ℚ, JSNum.div c.totalCost c.payablePeople = .fin raw ∧ 0 ≤ raw ∧
      (∃ x : ℚ, roundDouble (raw / r) = .fin x ∧
        c.eachPersonPays = roundDouble (((⌊x + 1 / 2⌋ : ℤ) : ℚ) * r)) ∧
      (raw < 2 ^ 51 →
        c.eachPersonPays = .fin (((⌊raw / r + 1 / 2⌋ : ℤ) : ℚ) * r) ∧
        |((⌊raw / r + 1 / 2⌋ : ℤ) : ℚ) * r - raw| ≤ r / 2 ∧
        (∀ m : ℤ, raw = (m : ℚ) * r + r / 2 →
          c.eachPersonPays = .fin (((m : ℚ) + 1) * r))) := by
  subst hc
  have hr0 : 0 < r := by rcases hr with h | h | h <;> rw [h] <;> norm_num
  have hr1 : 1 ≤ r := by rcases hr with h | h | h <;> rw [h] <;> norm_num
  have hne : r ≠ 0 := ne_of_gt hr0
  simp only [computed] at ht ⊢
  obtain ⟨raw, hraw, hrawd, hraw0, _⟩ :=
    rawPerPerson_finite distance mileage people fuelPrice includeOwner t ht
  have hdiv : JSNum.div (.fin raw) (.fin r) = roundDouble (raw / r) := by
    simp [JSNum.div, hne]
  have hle : |raw / r| ≤ |raw| := by
    rw [abs_div, abs_of_pos hr0]
    exact div_le_self (abs_nonneg raw) hr1
  obtain ⟨x, hx⟩ := roundDouble_finite_of_le (raw / r) raw hrawd hle
  have he : eachPersonPays distance mileage people fuelPrice includeOwner (.fin r)
      = roundDouble (((⌊x + 1 / 2⌋ : ℤ) : ℚ) * r) := by
    unfold eachPersonPays
    rw [hraw, hdiv, hx]
    rfl
  refine ⟨raw, hraw, hraw0, ⟨x, hx, he⟩, ?_⟩
  intro hsmall
  obtain ⟨hk, hexact⟩ := round_quotient_exact raw r x hr hrawd hraw0 hsmall hx
  have he2 : eachPersonPays distance mileage people fuelPrice includeOwner (.fin r)
      = .fin (((⌊raw / r + 1 / 2⌋ : ℤ) : ℚ) * r) := by
    rw [he, hk, hexact]
  refine ⟨he2, ?_, ?_⟩
  · have h1 : ((⌊raw / r + 1 / 2⌋ : ℤ) : ℚ) ≤ raw / r + 1 / 2 := Int.floor_le _
    have h2 : raw / r + 1 / 2 < ((⌊raw / r + 1 / 2⌋ : ℤ) : ℚ) + 1 := Int.lt_floor_add_one _
    have h3 : raw / r * r = raw := div_mul_cancel₀ raw hne
    rw [abs_le]
    constructor
    · nlinarith
    · nlinarith
  · intro m hm
    rw [he2]
    have h4 : raw / r + 1 / 2 = ((m + 1 : ℤ) : ℚ) := by
      rw [hm]; field_simp; ring
    rw [h4, Int.floor_intCast]
    push_cast
    rfl

/-- C4 amended, at the initial form values with the rounding unit 10: the total is finite,
the raw share is below `2 ^ 51`, and the share is the exact multiple
`⌊raw / 10 + 1/2⌋ * 10`. -/
theorem eachPersonPays_rounding_witness :
    ∃ raw : ℚ,
      JSNum.div (computed (.num (.fin 120)) (.num (.fin 40)) (.num (.fin 3))
          (.num (roundDouble 107.4)) true (.fin 10)).totalCost
        (computed (.num (.fin 120)) (.num (.fin 40)) (.num (.fin 3))
          (.num (roundDouble 107.4)) true (.fin 10)).payablePeople = .fin raw ∧ 0 ≤ raw ∧
      (∃ x : ℚ, roundDouble (raw / 10) = .fin x ∧
        (computed (.num (.fin 120)) (.num (.fin 40)) (.num (.fin 3))
          (.num (roundDouble 107.4)) true (.fin 10)).eachPersonPays
          = roundDouble (((⌊x + 1 / 2⌋ : ℤ) : ℚ) * 10)) ∧
      (raw < 2 ^ 51 →
        (computed (.num (.fin 120)) (.num (.fin 40)) (.num (.fin 3))
          (.num (roundDouble 107.4)) true (.fin 10)).eachPersonPays
          = .fin (((⌊raw / 10 + 1 / 2⌋ : ℤ) : ℚ) * 10) ∧
        |((⌊raw / 10 + 1 / 2⌋ : ℤ) : ℚ) * 10 - raw| ≤ 10 / 2 ∧
        (∀ m : ℤ, raw = (m : ℚ) * 10 + 10 / 2 →
          (computed (.num (.fin 120)) (.num (.fin 40)) (.num (.fin 3))
            (.num (roundDouble 107.4)) true (.fin 10)).eachPersonPays
            = .fin (((m : ℚ) + 1) * 10))) :=
  eachPersonPays_rounding (.num (.fin 120)) (.num (.fin 40)) (.num (.fin 3))
    (.num (roundDouble 107.4)) true 10 _ rfl (1417050585877709 / 4398046511104)
    (by decide!) (by norm_num)

/-! ## The worked examples -/

/-- C5, as stated, fails: on distance 120, mileage 40, fuel price 107.4 and 3 people the
total is the binary64 product `3 * 107.4 = 322.20000000000005`, not the Number 322.2, and
the raw share is 107.40000000000002, not the Number 107.4. -/
theorem worked_example_not_exact :
    (computed (.num (.fin 120)) (.num (.fin 40)) (.num (.fin 3)) (.num (roundDouble 107.4))
        true (.fin 1)).totalCost ≠ roundDouble 322.2 ∧
    (computed (.num (.fin 120)) (.num (.fin 40)) (.num (.fin 3)) (.num (roundDouble 107.4))
        true (.fin 1)).totalCost = roundDouble 322.20000000000005 ∧
    rawPerPerson (.num (.fin 120)) (.num (.fin 40)) (.num (.fin 3)) (.num (roundDouble 107.4))
        true ≠ roundDouble 107.4 ∧
    rawPerPerson (.num (.fin 120)) (.num (.fin 40)) (.num (.fin 3)) (.num (roundDouble 107.4))
        true = roundDouble 107.40000000000002 := by
  decide!

/-- C5, amended: on distance 120, mileage 40, fuel price 107.4 and 3 people the total is
322.20000000000005, shown as `322.2`, and each of the three pays 107 (unit 1); without the
owner two people pay 161 each; with the unit 10 the raw share 107.40000000000002 becomes
110. -/
theorem computed_worked_examples :
    (computed (.num (.fin 120)) (.num (.fin 40)) (.num (.fin 3)) (.num (roundDouble 107.4))
        true (.fin 1)).totalCost = roundDouble 322.20000000000005 ∧
    formatCurrency (computed (.num (.fin 120)) (.num (.fin 40)) (.num (.fin 3))
        (.num (roundDouble 107.4)) true (.fin 1)).totalCost = "322.2" ∧
    (computed (.num (.fin 120)) (.num (.fin 40)) (.num (.fin 3)) (.num (roundDouble 107.4))
        true (.fin 1)).eachPersonPays = .fin 107 ∧
    (computed (.num (.fin 120)) (.num (.fin 40)) (.num (.fin 3)) (.num (roundDouble 107.4))
        false (.fin 1)).payablePeople = .fin 2 ∧
    (computed (.num (.fin 120)) (.num (.fin 40)) (.num (.fin 3)) (.num (roundDouble 107.4))
        false (.fin 1)).eachPersonPays = .fin 161 ∧
    rawPerPerson (.num (.fin 120)) (.num (.fin 40)) (.num (.fin 3)) (.num (roundDouble 107.4))
        true = roundDouble 107.40000000000002 ∧
    (computed (.num (.fin 120)) (.num (.fin 40)) (.num (.fin 3)) (.num (roundDouble 107.4))
        true (.fin 10)).totalCost = roundDouble 322.20000000000005 ∧
    (computed (.num (.fin 120)) (.num (.fin 40)) (.num (.fin 3)) (.num (roundDouble 107.4))
        true (.fin 10)).eachPersonPays = .fin 110 := by
  decide!

/-! ## Degenerate distances -/

/-- C6, as stated, fails: with the distance `"abc"` and the fuel price `"Infinity"`, or the
fuel price `"1e400"` that overflows to `+Infinity`, the sanitised distance is 0 but the
total `0 * Infinity` and the share are NaN, not 0. -/
theorem degenerate_distance_infinite_price :
    ((computed (.str "abc") (.num (.fin 40)) (.num (.fin 3)) (.str "Infinity")
        true (.fin 1)).safeDistance = .fin 0 ∧
      (computed (.str "abc") (.num (.fin 40)) (.num (.fin 3)) (.str "Infinity")
        true (.fin 1)).totalCost = .nan ∧
      (computed (.str "abc") (.num (.fin 40)) (.num (.fin 3)) (.str "Infinity")
        true (.fin 1)).totalCost ≠ .fin 0 ∧
      (computed (.str "abc") (.num (.fin 40)) (.num (.fin 3)) (.str "Infinity")
        true (.fin 1)).eachPersonPays ≠ .fin 0) ∧
    ((computed (.str "abc") (.num (.fin 40)) (.num (.fin 3)) (.str "1e400")
        true (.fin 1)).safeDistance = .fin 0 ∧
      (computed (.str "abc") (.num (.fin 40)) (.num (.fin 3)) (.str "1e400")
        true (.fin 1)).totalCost = .nan ∧
      (computed (.str "abc") (.num (.fin 40)) (.num (.fin 3)) (.str "1e400")
        true (.fin 1)).eachPersonPays = .nan) := by
  decide!

/-- C6, amended: when the distance coerces to NaN (non-numeric), to zero (also the empty
string), to a negative number or to `-Infinity`, the fuel price does not coerce to
`+Infinity`, and the rounding unit is 1, 5 or 10, then for every mileage, people count and
owner flag the sanitised distance, the total cost and the per-person share are all 0. -/
theorem degenerate_distance_zero (distance mileage people fuelPrice : JSValue)
    (includeOwner : Bool) (r : ℚ) (c : Computed)
    (hc : c = computed distance mileage people fuelPrice includeOwner (.fin r))
    (hD : toNumber distance = .nan ∨ toNumber distance = .negInf ∨
      ∃ q : ℚ, q ≤ 0 ∧ toNumber distance = .fin q)
    (hF : toNumber fuelPrice ≠ .posInf)
    (hr : r = 1 ∨ r = 5 ∨ r = 10) :
    c.safeDistance = .fin 0 ∧ c.totalCost = .fin 0 ∧ c.eachPersonPays = .fin 0 := by
  subst hc
  have hr0 : 0 < r := by rcases hr with h | h | h <;> rw [h] <;> norm_num
  have hne : r ≠ 0 := ne_of_gt hr0
  have hd : safeDistance distance = .fin 0 := by
    unfold safeDistance
    rw [clamp_eq 0 (le_refl _)]
    rcases hD with h | h | ⟨q, hq, h⟩
    · rw [h]
    · rw [h]
    · rw [h]
      by_cases h0 : 0 ≤ q
      · have : q = 0 := le_antisymm hq h0
        simp [this]
      · simp [h0]
  obtain ⟨p, hp⟩ : ∃ p : ℚ, safeFuelPrice fuelPrice = .fin p := by
    rcases safeFuelPrice_cases fuelPrice with ⟨h, _⟩ | ⟨_, p, _, h⟩
    · exact absurd h hF
    · exact ⟨p, h⟩
  have ht : totalCost distance mileage fuelPrice = .fin 0 := by
    unfold totalCost
    rw [hd]
    change JSNum.mul (JSNum.div (.fin 0) (safeMileage mileage)) (safeFuelPrice fuelPrice) = _
    rw [hp]
    rcases safeMileage_cases mileage with ⟨_, h⟩ | ⟨_, m, hm, h⟩
    · rw [h]
      simp [JSNum.div, JSNum.mul, roundDouble_zero]
    · rw [h]
      have hm0 : m ≠ 0 := by
        intro h0; rw [h0] at hm; norm_num at hm
      simp [JSNum.div, JSNum.mul, roundDouble_zero, hm0]
  obtain ⟨raw, hraw, _, _, hraw0⟩ :=
    rawPerPerson_finite distance mileage people fuelPrice includeOwner 0 ht
  have hraw1 : raw = 0 := hraw0 rfl
  subst hraw1
  refine ⟨hd, ht, ?_⟩
  simp only [computed]
  unfold eachPersonPays
  rw [hraw]
  have hfl : (⌊(0 : ℚ) + 1 / 2⌋ : ℤ) = 0 := by
    rw [Int.floor_eq_iff]
    norm_num
  have e1 : JSNum.div (.fin 0) (.fin r) = .fin 0 := by
    simp [JSNum.div, hne, roundDouble_zero]
  have e2 : JSNum.round (.fin 0) = .fin 0 := by
    show JSNum.fin ((⌊(0 : ℚ) + 1 / 2⌋ : ℤ) : ℚ) = .fin 0
    rw [hfl]
    simp
  have e3 : JSNum.mul (.fin 0) (.fin r) = .fin 0 := by
    simp [JSNum.mul, roundDouble_zero]
  rw [e1, e2, e3]

/-- C6 amended, at the non-numeric distance `"abc"` with the other fields at their initial
values. -/
theorem degenerate_distance_zero_witness :
    (computed (.str "abc") (.num (.fin 40)) (.num (.fin 3)) (.num (roundDouble 107.4))
        true (.fin 1)).safeDistance = .fin 0 ∧
    (computed (.str "abc") (.num (.fin 40)) (.num (.fin 3)) (.num (roundDouble 107.4))
        true (.fin 1)).totalCost = .fin 0 ∧
    (computed (.str "abc") (.num (.fin 40)) (.num (.fin 3)) (.num (roundDouble 107.4))
        true (.fin 1)).eachPersonPays = .fin 0 :=
  degenerate_distance_zero (.str "abc") (.num (.fin 40)) (.num (.fin 3))
    (.num (roundDouble 107.4)) true 1 _ rfl (Or.inl (by decide!)) (by decide!) (by norm_num)

/-- Binary64 rounding is visible in the share: on distance 7, mileage 10, fuel price 90 and
two people the total is 62.99999999999999, the raw share 31.499999999999996, and each
person pays 31. -/
theorem eachPersonPays_example :
    (computed (.num (.fin 7)) (.num (.fin 10)) (.num (.fin 2)) (.num (.fin 90))
        true (.fin 1)).totalCost = roundDouble 62.99999999999999 ∧
    rawPerPerson (.num (.fin 7)) (.num (.fin 10)) (.num (.fin 2)) (.num (.fin 90)) true
        = roundDouble 31.499999999999996 ∧
    (computed (.num (.fin 7)) (.num (.fin 10)) (.num (.fin 2)) (.num (.fin 90))
        true (.fin 1)).eachPersonPays = .fin 31 := by
  decide!

/-! ## The currency formatter -/

/-- A digit character is neither the decimal point nor the group separator. -/
theorem digitChar_plain (d : Nat) (h : d < 10) : digitChar d ≠ '.' ∧ digitChar d ≠ ',' := by
  interval_cases d <;> decide

theorem decimalDigitsAux_plain (fuel n : Nat) (acc : List Char)
    (hacc : ∀ c ∈ acc, c ≠ '.' ∧ c ≠ ',') :
    ∀ c ∈ decimalDigitsAux fuel n acc, c ≠ '.' ∧ c ≠ ',' := by
  induction fuel generalizing n acc with
  | zero => simpa [decimalDigitsAux] using hacc
  | succ k ih =>
    unfold decimalDigitsAux
    split_ifs with h
    · intro c hc
      rcases List.mem_cons.mp hc with h1 | h1
      · rw [h1]; exact digitChar_plain n h
      · exact hacc c h1
    · apply ih
      intro c hc
      rcases List.mem_cons.mp hc with h1 | h1
      · rw [h1]; exact digitChar_plain _ (Nat.mod_lt _ (by norm_num))
      · exact hacc c h1

theorem decimalDigits_plain (n : Nat) : ∀ c ∈ decimalDigits n, c ≠ '.' ∧ c ≠ ',' :=
  decimalDigitsAux_plain _ _ [] (by simp)

theorem fixedDigits_plain (k f : Nat) : ∀ c ∈ fixedDigits k f, c ≠ '.' ∧ c ≠ ',' := by
  induction k generalizing f with
  | zero => simp [fixedDigits]
  | succ k ih =>
    intro c hc
    unfold fixedDigits at hc
    rcases List.mem_append.mp hc with h1 | h1
    · exact ih _ c h1
    · rw [List.mem_singleton.mp h1]; exact digitChar_plain _ (Nat.mod_lt _ (by norm_num))

theorem fixedDigits_length (k f : Nat) : (fixedDigits k f).length = k := by
  induction k generalizing f with
  | zero => simp [fixedDigits]
  | succ k ih => simp [fixedDigits, ih]

theorem dropZeros_mem (cut : Nat) (l : List Char) : ∀ c ∈ dropZeros cut l, c ∈ l := by
  induction cut generalizing l with
  | zero => intro c hc; simpa [dropZeros] using hc
  | succ k ih =>
    cases l with
    | nil => intro c hc; simp [dropZeros] at hc
    | cons a rest =>
      by_cases ha : a = '0'
      · subst ha
        intro c hc
        simp only [dropZeros] at hc
        exact List.mem_cons_of_mem _ (ih rest c hc)
      · intro c hc
        rw [dropZeros] at hc
        · exact hc
        · intro cut' rest' h1 h2
          cases h2
          exact ha rfl

theorem dropZeros_length (cut : Nat) (l : List Char) :
    l.length - cut ≤ (dropZeros cut l).length ∧ (dropZeros cut l).length ≤ l.length := by
  induction cut generalizing l with
  | zero => simp [dropZeros]
  | succ k ih =>
    cases l with
    | nil => simp [dropZeros]
    | cons a rest =>
      by_cases ha : a = '0'
      · subst ha
        simp only [dropZeros, List.length_cons]
        have := ih rest
        omega
      · rw [dropZeros]
        · simp only [List.length_cons]
          omega
        · intro cut' rest' h1 h2
          cases h2
          exact ha rfl

theorem groupPairs_filter (l : List Char) :
    (groupPairs l).filter (fun c => c != ',') = l.filter (fun c => c != ',') := by
  induction l using groupPairs.induct with
  | case1 a b c rest ih =>
    rw [groupPairs]
    simp only [List.filter_cons]
    rw [ih]
    simp [List.filter_cons]
  | case2 l h =>
    rw [groupPairs]
    intro a b c rest hl
    exact h a b c rest hl

theorem groupIndian_filter (ds : List Char) :
    (groupIndian ds).filter (fun c => c != ',') = ds.filter (fun c => c != ',') := by
  unfold groupIndian
  rw [List.filter_reverse]
  have h : (groupIndianRev ds.reverse).filter (fun c => c != ',')
      = ds.reverse.filter (fun c => c != ',') := by
    generalize ds.reverse = l
    match l with
    | [] => rfl
    | [_] => rfl
    | [_, _] => rfl
    | [_, _, _] => rfl
    | a :: b :: c :: d :: rest =>
      rw [groupIndianRev]
      simp only [List.filter_cons]
      rw [groupPairs_filter]
      simp [List.filter_cons]
  rw [h, List.filter_reverse, List.reverse_reverse]

/-- Grouping adds nothing but separators. -/
theorem groupIndian_mem (ds : List Char) (c : Char) (hc : c ∈ groupIndian ds) :
    c = ',' ∨ c ∈ ds := by
  by_cases h : c = ','
  · exact Or.inl h
  · right
    have h1 : c ∈ (groupIndian ds).filter (fun c => c != ',') :=
      List.mem_filter.mpr ⟨hc, by simpa using h⟩
    rw [groupIndian_filter] at h1
    exact (List.mem_filter.mp h1).1

theorem integerDigits_no_point (q : ℚ) (m : Nat) : ∀ c ∈ integerDigits q m, c ≠ '.' := by
  intro c hc
  rcases groupIndian_mem _ c hc with h | h
  · rw [h]; decide
  · exact (decimalDigits_plain _ c h).1

theorem integerDigits_filter (q : ℚ) (m : Nat) :
    (integerDigits q m).filter (fun c => c != ',')
      = decimalDigits (scaledMagnitude q m / 10 ^ m) := by
  unfold integerDigits
  rw [groupIndian_filter, List.filter_eq_self]
  intro c hc
  simpa using (decimalDigits_plain _ c hc).2

theorem fractionDigits_plain (q : ℚ) (mn mx : Nat) :
    ∀ c ∈ fractionDigits q mn mx, c ≠ '.' ∧ c ≠ ',' := by
  intro c hc
  unfold fractionDigits at hc
  rw [List.mem_reverse] at hc
  have h1 := dropZeros_mem _ _ c hc
  rw [List.mem_reverse] at h1
  exact fixedDigits_plain _ _ c h1

theorem fractionDigits_length (q : ℚ) (mn mx : Nat) :
    mx - (mx - mn) ≤ (fractionDigits q mn mx).length ∧ (fractionDigits q mn mx).length ≤ mx := by
  unfold fractionDigits
  have h := dropZeros_length (mx - mn)
    (fixedDigits mx (scaledMagnitude q mx % 10 ^ mx)).reverse
  simp only [List.length_reverse, fixedDigits_length] at h ⊢
  exact h

theorem truncate_intCast (n : ℤ) : truncate (n : ℚ) = n := by
  unfold truncate
  split_ifs <;> simp

/-- The test `value % 1 === 0` holds exactly for the integers. -/
theorem rem_one_eq_zero_iff (q : ℚ) :
    JSNum.strictEq (JSNum.rem (.fin q) (.fin 1)) (.fin 0) = true ↔ ∃ n : ℤ, q = n := by
  simp only [JSNum.rem, one_ne_zero, if_false, JSNum.strictEq, decide_eq_true_eq,
    JSNum.fin.injEq, div_one, one_mul]
  constructor
  · intro h
    exact ⟨truncate q, by linarith⟩
  · rintro ⟨n, rfl⟩
    rw [truncate_intCast]
    simp

theorem scaledMagnitude_intCast (n : ℤ) : scaledMagnitude (n : ℚ) 2 = n.natAbs * 100 := by
  unfold scaledMagnitude
  have h : |(n : ℚ)| * ((10 ^ 2 : ℕ) : ℚ) + 1 / 2 = ((n.natAbs * 100 : ℕ) : ℤ) + 1 / 2 := by
    have : |(n : ℚ)| = ((n.natAbs : ℤ) : ℚ) := by
      rw [Int.natCast_natAbs]; push_cast; rfl
    rw [this]; push_cast; norm_num
  rw [h]
  have h2 : (⌊(((n.natAbs * 100 : ℕ) : ℤ) : ℚ) + 1 / 2⌋ : ℤ) = ((n.natAbs * 100 : ℕ) : ℤ) := by
    rw [Int.floor_eq_iff]
    constructor <;> norm_num
  rw [h2]
  exact Int.toNat_ofNat _

theorem fractionDigits_intCast (n : ℤ) : fractionDigits (n : ℚ) 0 2 = [] := by
  unfold fractionDigits
  rw [scaledMagnitude_intCast]
  have : n.natAbs * 100 % 10 ^ 2 = 0 := by norm_num
  rw [this]
  decide

theorem dropWhile_append_of_all (p : Char → Bool) (l1 l2 : List Char)
    (h : ∀ c ∈ l1, p c = true) : (l1 ++ l2).dropWhile p = l2.dropWhile p := by
  induction l1 with
  | nil => rfl
  | cons a rest ih =>
    have ha : p a = true := h a (List.mem_cons_self _ _)
    simp only [List.cons_append, List.dropWhile_cons, ha, if_true]
    exact ih (fun c hc => h c (List.mem_cons_of_mem _ hc))

/-- The rendering of a finite value, in its parts. -/
theorem formatCurrency_fin (q : ℚ) (mn : Nat)
    (hmn : mn = if JSNum.strictEq (JSNum.rem (.fin q) (.fin 1)) (.fin 0) then 0 else 1) :
    formatCurrency (.fin q) =
      String.mk ((if q < 0 then ['-'] else []) ++ integerDigits q 2 ++
        (if fractionDigits q mn 2 = [] then [] else '.' :: fractionDigits q mn 2)) := by
  subst hmn
  simp [formatCurrency, JSNum.isFinite, toLocaleStringEnIN]

/-- The digits shown after the point are the fraction digits of the rendering. -/
theorem shownFractionDigits_mk (sign int frac : List Char)
    (hs : ∀ c ∈ sign, c ≠ '.') (hi : ∀ c ∈ int, c ≠ '.') :
    shownFractionDigits (String.mk (sign ++ int ++ (if frac = [] then [] else '.' :: frac)))
      = frac.length := by
  unfold shownFractionDigits
  have h1 : ∀ c ∈ sign ++ int, (fun c => c != '.') c = true := by
    intro c hc
    rcases List.mem_append.mp hc with h | h
    · simpa using hs c h
    · simpa using hi c h
  rw [String.toList, dropWhile_append_of_all _ _ _ h1]
  by_cases hf : frac = []
  · simp [hf]
  · simp [hf]

theorem digitChar_eq_zero_iff (d : Nat) (h : d < 10) : digitChar d = '0' ↔ d = 0 := by
  interval_cases d <;> decide

/-- With at least one and at most two fraction digits, the second is dropped exactly when the
rounded hundredths digit is zero. -/
theorem fractionDigits_one_two (q : ℚ) :
    (fractionDigits q 1 2).length = if scaledMagnitude q 2 % 10 = 0 then 1 else 2 := by
  unfold fractionDigits
  have hx : scaledMagnitude q 2 % 10 = (scaledMagnitude q 2 % 10 ^ 2) % 10 := by
    rw [Nat.mod_mod_of_dvd _ (by norm_num : 10 ∣ 10 ^ 2)]
  rw [hx]
  generalize scaledMagnitude q 2 % 10 ^ 2 = y
  have e : (fixedDigits 2 y).reverse = [digitChar (y % 10), digitChar (y / 10 % 10)] := by
    simp [fixedDigits]
  rw [e]
  by_cases h0 : y % 10 = 0
  · have h1 : digitChar (y % 10) = '0' := by rw [h0]; decide
    rw [h1]
    simp [dropZeros, h0]
  · have h1 : digitChar (y % 10) ≠ '0' := by
      intro h2
      exact h0 ((digitChar_eq_zero_iff _ (Nat.mod_lt _ (by norm_num))).mp h2)
    rw [dropZeros]
    · simp [h0]
    · intro cut rest _ h3
      exact h1 (List.cons.inj h3).1

/-! ### Claim C7 -/

/-- C7, as stated, fails: the non-integral value 1000.25 is rendered with two decimal
digits, `"1,000.25"`. -/
theorem formatCurrency_two_decimals :
    formatCurrency (.fin 1000.25) = "1,000.25" ∧
    shownFractionDigits (formatCurrency (.fin 1000.25)) = 2 ∧
    ¬ ∃ n : ℤ, (1000.25 : ℚ) = n := by
  refine ⟨by decide!, by decide!, ?_⟩
  rintro ⟨n, hn⟩
  have h := congrArg Rat.den hn
  rw [Rat.intCast_den] at h
  revert h
  decide!

/-- C7, amended: for every finite value `formatCurrency` shows no decimal digit when the
value is integral and one or two when it is not (the value is rounded to two places, and the
second digit is dropped exactly when it is zero); the integer part carries the group
separators, which are the only characters added to its decimal digits. -/
theorem formatCurrency_fraction_digits (q : ℚ) :
    ((∃ n : ℤ, q = n) → shownFractionDigits (formatCurrency (.fin q)) = 0) ∧
    ((¬ ∃ n : ℤ, q = n) →
      shownFractionDigits (formatCurrency (.fin q))
        = if scaledMagnitude q 2 % 10 = 0 then 1 else 2) ∧
    (∃ frac : List Char,
      formatCurrency (.fin q)
        = String.mk ((if q < 0 then ['-'] else []) ++ integerDigits q 2 ++ frac) ∧
      (∀ c ∈ frac, c ≠ ',') ∧
      (integerDigits q 2).filter (fun c => c != ',')
        = decimalDigits (scaledMagnitude q 2 / 10 ^ 2)) := by
  have hsign : ∀ c ∈ (if q < 0 then ['-'] else []), c ≠ '.' := by
    intro c hc
    split_ifs at hc
    · rw [List.mem_singleton.mp hc]; decide
    · simp at hc
  refine ⟨?_, ?_, ?_⟩
  · rintro ⟨n, rfl⟩
    have hmn : (0 : Nat)
        = if JSNum.strictEq (JSNum.rem (.fin (n : ℚ)) (.fin 1)) (.fin 0) then 0 else 1 := by
      rw [(rem_one_eq_zero_iff _).mpr ⟨n, rfl⟩]; rfl
    rw [formatCurrency_fin _ 0 hmn,
      shownFractionDigits_mk _ _ _ hsign (integerDigits_no_point _ _), fractionDigits_intCast]
    rfl
  · intro hq
    have hb : JSNum.strictEq (JSNum.rem (.fin q) (.fin 1)) (.fin 0) = false := by
      rw [Bool.eq_false_iff]
      intro h
      exact hq ((rem_one_eq_zero_iff q).mp h)
    have hmn : (1 : Nat)
        = if JSNum.strictEq (JSNum.rem (.fin q) (.fin 1)) (.fin 0) then 0 else 1 := by
      rw [hb]; rfl
    rw [formatCurrency_fin _ 1 hmn,
      shownFractionDigits_mk _ _ _ hsign (integerDigits_no_point _ _), fractionDigits_one_two]
  · obtain ⟨mn, hmn⟩ : ∃ mn : Nat,
        mn = if JSNum.strictEq (JSNum.rem (.fin q) (.fin 1)) (.fin 0) then 0 else 1 := ⟨_, rfl⟩
    refine ⟨_, formatCurrency_fin q mn hmn, ?_, integerDigits_filter q 2⟩
    intro c hc
    split_ifs at hc with h
    · simp at hc
    · rcases List.mem_cons.mp hc with h1 | h1
      · rw [h1]; decide
      · exact (fractionDigits_plain _ _ _ c h1).2

/-- C7 amended, at 1000.5, which is not integral and is shown with one decimal digit. -/
theorem formatCurrency_fraction_digits_witness :
    shownFractionDigits (formatCurrency (.fin (2001 / 2)))
      = if scaledMagnitude (2001 / 2) 2 % 10 = 0 then 1 else 2 :=
  (formatCurrency_fraction_digits (2001 / 2)).2.1 (by
    rintro ⟨n, hn⟩
    have h := congrArg Rat.den hn
    rw [Rat.intCast_den] at h
    revert h
    decide!)

/-! ### Claim C8 -/

/-- C8: `formatCurrency` gives `"0"` for NaN, `+Infinity` and `-Infinity`, `"1,000"` for
1000 and `"1,000.5"` for 1000.5. -/
theorem formatCurrency_spec_values :
    formatCurrency .nan = "0" ∧ formatCurrency .posInf = "0" ∧ formatCurrency .negInf = "0" ∧
    (∀ x : JSNum, x.isFinite = false → formatCurrency x = "0") ∧
    formatCurrency (.fin 1000) = "1,000" ∧ formatCurrency (.fin 1000.5) = "1,000.5" := by
  refine ⟨by decide!, by decide!, by decide!, ?_, by decide!, by decide!⟩
  intro x hx
  simp [formatCurrency, hx]

/-! ## The summary text -/

/-- C9: for every raw input the summary is the eleven-line template, joined by line breaks,
whose wording varies only through the interpolated values and the owner clause. -/
theorem shareText_template (toStr : JSNum → String)
    (distance mileage people fuelPrice : JSValue) (includeOwner : Bool) (roundTo : JSNum) :
    shareText toStr (computed distance mileage people fuelPrice includeOwner roundTo) includeOwner
      = String.intercalate "\n"
        [ "TRIP COST SPLIT",
          "---------------",
          "Total Cost: Rs " ++ formatCurrency
            (computed distance mileage people fuelPrice includeOwner roundTo).totalCost,
          "Distance: " ++ toStr
            (computed distance mileage people fuelPrice includeOwner roundTo).safeDistance ++ " km",
          "Mileage: " ++ toStr
            (computed distance mileage people fuelPrice includeOwner roundTo).safeMileage ++ " km/l",
          "Fuel Price: Rs " ++ formatCurrency
            (computed distance mileage people fuelPrice includeOwner roundTo).safeFuelPrice ++ "/l",
          "People: " ++ toStr
            (computed distance mileage people fuelPrice includeOwner roundTo).safePeople,
          "",
          "SPLIT:",
          "Each person pays: Rs " ++ formatCurrency
            (computed distance mileage people fuelPrice includeOwner roundTo).eachPersonPays,
          if includeOwner then
            "(" ++ toStr (computed distance mileage people fuelPrice includeOwner roundTo).payablePeople
              ++ " people paying including owner)"
          else
            "(" ++ toStr (computed distance mileage people fuelPrice includeOwner roundTo).payablePeople
              ++ " people paying excluding owner)" ] := by
  generalize computed distance mileage people fuelPrice includeOwner roundTo = c
  have e1 : "TRIP COST SPLIT\n---------------\nTotal Cost: Rs "
      = "TRIP COST SPLIT" ++ "\n" ++ "---------------" ++ "\n" ++ "Total Cost: Rs " := by decide
  have e2 : "\nDistance: " = "\n" ++ "Distance: " := by decide
  have e3 : " km\nMileage: " = " km" ++ "\n" ++ "Mileage: " := by decide
  have e4 : " km/l\nFuel Price: Rs " = " km/l" ++ "\n" ++ "Fuel Price: Rs " := by decide
  have e5 : "/l\nPeople: " = "/l" ++ "\n" ++ "People: " := by decide
  have e6 : "\n\nSPLIT:\nEach person pays: Rs "
      = "\n" ++ "" ++ "\n" ++ "SPLIT:" ++ "\n" ++ "Each person pays: Rs " := by decide
  have e7 : "\n(" = "\n" ++ "(" := by decide
  have e8 : " people paying including owner)"
      = " people paying" ++ " including owner" ++ ")" := by decide
  have e9 : " people paying excluding owner)"
      = " people paying" ++ " excluding owner" ++ ")" := by decide
  unfold shareText
  rw [e1, e2, e3, e4, e5, e6, e7, e8, e9]
  cases includeOwner <;>
    simp only [String.intercalate, String.intercalate.go, String.append_assoc, if_true,
      if_false, Bool.false_eq_true]

/-! ## The fuel selector -/

theorem fuelConsistent_initial : FuelConsistent initialState := by
  constructor
  · intro _; rfl
  · intro h; cases h

/-- Every event keeps the selector consistent with the stored price. -/
theorem fuelConsistent_step (s : AppState) (e : Event) (h : FuelConsistent s) :
    FuelConsistent (step s e) := by
  cases e with
  | fuelSelect type =>
    cases type <;> constructor <;> intro h1 <;>
      first
        | rfl
        | (simp [step, handleFuelSelect] at h1)
  | fuelPriceEdit value => constructor <;> intro h1 <;> simp [step, fuelPriceChange] at h1
  | reset => constructor <;> intro h1 <;> first | rfl | (simp [step, resetForm] at h1)
  | distanceEdit value => exact h
  | mileageEdit value => exact h
  | peopleEdit value => exact h
  | includeOwnerEdit checked => exact h
  | roundToEdit value => exact h
  | recalc => exact h
  | copySettled ok => exact h
  | copyExpired => exact h

theorem fuelConsistent_foldl (events : List Event) (s : AppState) (h : FuelConsistent s) :
    FuelConsistent (events.foldl step s) := by
  induction events generalizing s with
  | nil => exact h
  | cons e rest ih => exact ih _ (fuelConsistent_step s e h)

/-- C10: after any sequence of form events from the initial state, a selector on petrol
stores the Number 107.4 and a selector on diesel stores 96.2, the preset of that type;
selecting `custom` leaves the stored price alone, and a manual price edit switches the
selector to `custom`. -/
theorem fuel_selector_consistent (events : List Event) :
    ((run events).fuelType = .petrol → (run events).fuelPrice = .num (roundDouble 107.4)) ∧
    ((run events).fuelType = .diesel → (run events).fuelPrice = .num (roundDouble 96.2)) ∧
    ((run events).fuelType ≠ .custom →
      (run events).fuelPrice = fuelPresets (run events).fuelType) ∧
    (∀ s : AppState, (handleFuelSelect .custom s).fuelPrice = s.fuelPrice) ∧
    (∀ (s : AppState) (value : String),
      (step s (.fuelPriceEdit value)).fuelType = .custom ∧
      (step s (.fuelPriceEdit value)).fuelPrice = .str value) := by
  have h := fuelConsistent_foldl events initialState fuelConsistent_initial
  have e1 : (JSValue.num (roundDouble 107.4)) = .num (roundDouble (1074 / 10)) := by decide!
  have e2 : (JSValue.num (roundDouble 96.2)) = .num (roundDouble (962 / 10)) := by decide!
  rw [e1, e2]
  refine ⟨h.1, h.2, ?_, fun s => rfl, fun s value => ⟨rfl, rfl⟩⟩
  intro hne
  change (List.foldl step initialState events).fuelType ≠ .custom at hne
  change (List.foldl step initialState events).fuelPrice
    = fuelPresets (List.foldl step initialState events).fuelType
  generalize List.foldl step initialState events = s at h hne ⊢
  cases hs : s.fuelType with
  | petrol => rw [h.1 hs]; rfl
  | diesel => rw [h.2 hs]; rfl
  | custom => exact absurd hs hne

/-- C10 on a concrete trace: a manual edit, then diesel, then an edit of the distance. -/
theorem fuel_selector_consistent_witness :
    (run [.fuelPriceEdit "99", .fuelSelect .diesel, .distanceEdit "80"]).fuelPrice
      = .num (roundDouble 96.2) :=
  (fuel_selector_consistent [.fuelPriceEdit "99", .fuelSelect .diesel, .distanceEdit "80"]).2.1
    (by decide)

end Splitter
